import Mathlib

/-!
Verification of the algorithmic core of the fotoloc repository: the
union-find registry, the blob labeler (`Blobs`), its query operations
(`label`, `object`, `in`/objectsTouching, `startIn`/objectsStartingIn),
and the line segmenter (`isLine`, `lineError`, `findLinesHalvingExtending`,
`findLargerLength`, `findLinesExtendingDecreasingError`).

The C++ sources are embedded shallowly:
* machine `int`s are modelled as unbounded `Int`/`Nat` (no claim depends on
  overflow);
* the mutable label grid is a function `Coord → Int` updated pointwise,
  written exactly in the raster order of the source loops;
* `std::map<int, CoordPair>` is an association list kept sorted by key,
  which is the iteration order of `std::map`;
* floating-point `double`s are modelled as rationals.  The helper header
  `math.h` (perpendicular distance, chord length, mean, standard deviation)
  is not part of the sources and is modelled from the spec; square roots
  are eliminated algebraically as documented at each definition.
-/

/-- Image coordinate, from coord.h: `struct Coord { int x; int y; }`.
The default constructor gives (0, 0). -/
structure Coord where
  x : Int
  y : Int
deriving DecidableEq, Repr

/-- From blobs.h: first and last raster positions at which a resolved label
was seen.  `CoordPair()` default-constructs both coordinates to (0,0). -/
structure CoordPair where
  first : Coord
  last : Coord
deriving DecidableEq, Repr

/-- `Blobs::default_label = 0`: the background label. -/
def default_label : Int := 0

/-- The bounds check used by `Pixels::color` and by the labeler:
`c.x >= 0 && c.y >= 0 && c.x < w && c.y < h`  (`Blobs::label` tests the
same four comparisons in a different order). -/
def inB (w h : Int) (p : Coord) : Bool :=
  decide (0 ≤ p.x ∧ 0 ≤ p.y ∧ p.x < w ∧ p.y < h)

/-- Raster (row-major) ordering of coordinates: the order in which the two
passes of the `Blobs` constructor visit pixels. -/
def rasterLt (p q : Coord) : Prop :=
  p.y < q.y ∨ (p.y = q.y ∧ p.x < q.x)

/-- Reflexive raster order. -/
def rasterLE (p q : Coord) : Prop :=
  rasterLt p q ∨ p = q

instance (p q : Coord) : Decidable (rasterLt p q) := by
  unfold rasterLt; infer_instance

instance (p q : Coord) : Decidable (rasterLE p q) := by
  unfold rasterLE; infer_instance

/-- The list of in-bounds coordinates in raster order: the iteration space
of `for (y = 0; y < h; ++y) for (x = 0; x < w; ++x)`. -/
def raster (w h : Int) : List Coord :=
  (List.range h.toNat).flatMap
    (fun (y : Nat) => (List.range w.toNat).map (fun (x : Nat) => ⟨(x : Int), (y : Int)⟩))

/-- Pixel-grid collaborator, from pixels.h.  The source is templated on the
channel count `N` and stores `std::vector<std::vector<std::array<unsigned
char, N>>> p`; a pixel colour is modelled as a `List Nat` of length `n`. -/
structure Pixels (n : Nat) where
  p : List (List (List Nat))
  w : Int
  h : Int

/-- `Pixels::color(c)`: the stored pixel if `c` is in bounds, otherwise the
default colour `make_array<N>(0xff)` (all channels 255).  Reading a
coordinate that is in bounds but missing from a ragged `p` is undefined in
the C++; the embedding returns the same default there. -/
def Pixels.color {n : Nat} (img : Pixels n) (c : Coord) : List Nat :=
  if inB img.w img.h c then
    (img.p.getD c.y.toNat []).getD c.x.toNat (List.replicate n 255)
  else List.replicate n 255

/-!
## Union-find registry

Modelled from the spec: the header disjointset.h is not among the sources;
only its interface is visible (`DisjointSet<int> set(default_label)`,
`add`, `join`, `find`, `notfound`).  Per spec section 4.1, `add` registers
a singleton (idempotent), `join` merges the two equivalence classes,
`find` returns the representative of a label's class or the reserved
not-found sentinel (the constructor argument), and `find` is a pure
function of the equivalence state.  The model stores a label → class-id
association list; the representative of a class is its least label, which
matches the spec's statement that registry entries are created in
row-major discovery order (section 4.2 `objectsStartingIn`).
-/
structure DisjointSet where
  nf : Int
  elems : List (Int × Nat)
  nextId : Nat

/-- First-match association-list lookup (label → class id). -/
def lookupC : List (Int × Nat) → Int → Option Nat
  | [], _ => none
  | (k, c) :: rest, l => if l = k then some c else lookupC rest l

/-- `DisjointSet(notfound_value)`: empty structure remembering the
sentinel. -/
def DisjointSet.init (nf : Int) : DisjointSet := ⟨nf, [], 0⟩

/-- Class id of a label, if the label was ever added. -/
def DisjointSet.classOf (s : DisjointSet) (l : Int) : Option Nat :=
  lookupC s.elems l

/-- `add(label)`: register a new singleton set; no-op if already present. -/
def DisjointSet.add (s : DisjointSet) (l : Int) : DisjointSet :=
  if (s.classOf l).isSome then s
  else ⟨s.nf, (l, s.nextId) :: s.elems, s.nextId + 1⟩

/-- `join(a, b)`: merge the class of `b` into the class of `a` (the merge
direction is not externally observable per the spec).  No-op if either
label is absent; in the labeler every joined label has been added. -/
def DisjointSet.join (s : DisjointSet) (a b : Int) : DisjointSet :=
  match s.classOf a, s.classOf b with
  | some ca, some cb =>
      ⟨s.nf, s.elems.map (fun p => (p.1, if p.2 = cb then ca else p.2)), s.nextId⟩
  | _, _ => s

/-- All labels of a given class. -/
def DisjointSet.members (s : DisjointSet) (c : Nat) : List Int :=
  (s.elems.filter (fun p => p.2 = c)).map Prod.fst

/-- `find(label)`: the representative (least member) of the label's class,
or the not-found sentinel if the label was never added. -/
def DisjointSet.find (s : DisjointSet) (l : Int) : Int :=
  match s.classOf l with
  | none => s.nf
  | some c => (s.members c).foldr min l

/-- `notfound()`: the reserved sentinel value. -/
def DisjointSet.notfound (s : DisjointSet) : Int := s.nf

/-!
## Blob labeler (blobs.h / blobs.cpp)
-/

/-- Pointwise update of a label grid (`labels[p.y][p.x] = v`). -/
def updF (f : Coord → Int) (p : Coord) (v : Int) : Coord → Int :=
  fun q => if q = p then v else f q

/-- The four already-visited neighbours inspected for pixel (x, y), in the
source's order: left, up-left, up, up-right. -/
def nbrsOf (pt : Coord) : List Coord :=
  [⟨pt.x - 1, pt.y⟩, ⟨pt.x - 1, pt.y - 1⟩, ⟨pt.x, pt.y - 1⟩, ⟨pt.x + 1, pt.y - 1⟩]

/-- The neighbours that pass the labeler's test
`p.x >= 0 && p.y >= 0 && p.x < w && p.y < h && img.color(p) == current_color`. -/
def matchedNeighbors {n : Nat} (img : Pixels n) (pt : Coord) : List Coord :=
  (nbrsOf pt).filter
    (fun q => inB img.w img.h q && decide (img.color q = img.color pt))

/-- Mutable state of the first (assignment) pass: the label grid, the
union-find structure and `next_label`. -/
structure LabState where
  labels : Coord → Int
  set : DisjointSet
  next : Int

/-- One iteration of the assignment pass at pixel `pt`.  `ms` is the list
of labels of matching neighbours in inspection order; with no match the
pixel gets a fresh label which is added to the union-find structure;
otherwise it adopts the first match's label `l0`, and every later matching
label different from `l0` (`equivalent_labels` in the source, nonempty
exactly when `count > 1 && different`) is joined with `l0`. -/
def pass1Step {n : Nat} (img : Pixels n) (st : LabState) (pt : Coord) : LabState :=
  match (matchedNeighbors img pt).map st.labels with
  | [] => ⟨updF st.labels pt st.next, st.set.add st.next, st.next + 1⟩
  | l0 :: rest =>
      ⟨updF st.labels pt l0,
       (rest.filter (fun l => decide (l ≠ l0))).foldl (fun s l => s.join l0 l) st.set,
       st.next⟩

/-- The whole assignment pass: grid initialised to `default_label`,
union-find constructed as `set(default_label)`, `next_label =
default_label + 1`. -/
def pass1 {n : Nat} (img : Pixels n) : LabState :=
  (raster img.w img.h).foldl (pass1Step img)
    ⟨fun _ => default_label, DisjointSet.init default_label, default_label + 1⟩

/-- Sorted-association-list model of `std::map<int, CoordPair>`:
`objs[repLabel] = CoordPair(point, point)` on first sighting, otherwise
`objs[repLabel].last = point`. -/
def objsUpsert (objs : List (Int × CoordPair)) (rep : Int) (pt : Coord) :
    List (Int × CoordPair) :=
  match objs with
  | [] => [(rep, ⟨pt, pt⟩)]
  | (k, v) :: rest =>
      if rep < k then (rep, ⟨pt, pt⟩) :: (k, v) :: rest
      else if rep = k then (k, ⟨v.first, pt⟩) :: rest
      else (k, v) :: objsUpsert rest rep pt

/-- State of the second (resolution) pass: the grid being rewritten with
representatives, and the object registry. -/
structure Pass2State where
  labels : Coord → Int
  objs : List (Int × CoordPair)

/-- One iteration of the resolution pass at pixel `pt`: skip background
pixels; otherwise replace the label by its representative and record the
sighting, unless `find` returns the not-found sentinel (then the pixel is
left unchanged, a logged warning in the source). -/
def pass2Step (set : DisjointSet) (st : Pass2State) (pt : Coord) : Pass2State :=
  let cl := st.labels pt
  if cl ≠ default_label then
    let rep := set.find cl
    if rep ≠ set.notfound then
      ⟨updF st.labels pt rep, objsUpsert st.objs rep pt⟩
    else st
  else st

/-- Result of the `Blobs` constructor: dimensions, final label grid and
object registry. -/
structure Blobs where
  w : Int
  h : Int
  labels : Coord → Int
  objs : List (Int × CoordPair)

/-- The `Blobs(const Pixels<N>&)` constructor: assignment pass followed by
the resolution pass, both in raster order. -/
def mkBlobs {n : Nat} (img : Pixels n) : Blobs :=
  let st1 := pass1 img
  let st2 := (raster img.w img.h).foldl (pass2Step st1.set) ⟨st1.labels, []⟩
  ⟨img.w, img.h, st2.labels, st2.objs⟩

/-- First-match association-list lookup in the registry
(`objs.find(label)`). -/
def lookupPair : List (Int × CoordPair) → Int → Option CoordPair
  | [], _ => none
  | (k, v) :: rest, l => if l = k then some v else lookupPair rest l

/-- `Blobs::label(p)`: the resolved label at `p`, or `default_label` when
`p` is out of bounds. -/
def Blobs.label (b : Blobs) (p : Coord) : Int :=
  if inB b.w b.h p then b.labels p else default_label

/-- `Blobs::object(label)`: the registry entry, or the default-constructed
`CoordPair()` (both coordinates (0,0)) when the label has no entry. -/
def Blobs.object (b : Blobs) (label : Int) : CoordPair :=
  match lookupPair b.objs label with
  | some pr => pr
  | none => ⟨⟨0, 0⟩, ⟨0, 0⟩⟩

/-- Integer interval [a, b) as a list, in increasing order. -/
def intRange (a b : Int) : List Int :=
  (List.range (b - a).toNat).map (fun (k : Nat) => a + (k : Int))

/-- The sequence of coordinates at which `Blobs::in(p1, p2)` reads
`labels[y][x]`: every point of the rectangle [p1, p2), row by row.  The
source performs no bounds check of its own on these reads. -/
def Blobs.inAccesses (p1 p2 : Coord) : List Coord :=
  (intRange p1.y p2.y).flatMap
    (fun y => (intRange p1.x p2.x).map (fun x => ⟨x, y⟩))

/-- `Blobs::in(p1, p2)` (spec name `objectsTouching`): scan the rectangle,
and for each non-background label not seen before report the registry
entry's first point (labels without an entry are skipped with a logged
warning).  The fold state is (`used_labels`, `subset`). -/
def Blobs.objectsTouching (b : Blobs) (p1 p2 : Coord) : List Coord :=
  ((Blobs.inAccesses p1 p2).foldl
    (fun (st : List Int × List Coord) q =>
      let l := b.labels q
      if l ≠ default_label ∧ l ∉ st.1 then
        match lookupPair b.objs l with
        | some pr => (l :: st.1, st.2 ++ [pr.first])
        | none => st
      else st)
    ([], [])).2

/-- The loop body of `Blobs::startIn(p1, p2)` over the registry in map
(key) order, with the early `break` once an entry's first point lies below
the rectangle. -/
def startInAux (p1 p2 : Coord) : List (Int × CoordPair) → List Coord
  | [] => []
  | e :: rest =>
      if e.2.first.y ≥ p1.y ∧ e.2.first.y ≤ p2.y ∧
         e.2.first.x ≥ p1.x ∧ e.2.first.x ≤ p2.x then
        e.2.first :: startInAux p1 p2 rest
      else if e.2.first.y > p2.y then []
      else startInAux p1 p2 rest

/-- `Blobs::startIn(p1, p2)` (spec name `objectsStartingIn`). -/
def Blobs.startIn (b : Blobs) (p1 p2 : Coord) : List Coord :=
  startInAux p1 p2 b.objs

/-- Specification-side full scan for `objectsStartingIn`, following the
spec's words: report the firstSeen coordinates of all registry entries
whose firstSeen lies within the rectangle, with no early exit. -/
def startInFullScan (objs : List (Int × CoordPair)) (p1 p2 : Coord) : List Coord :=
  (objs.filter (fun e =>
      decide (e.2.first.y ≥ p1.y ∧ e.2.first.y ≤ p2.y ∧
              e.2.first.x ≥ p1.x ∧ e.2.first.x ≤ p2.x))).map
    (fun e => e.2.first)

/-!
## Line segmenter (line.h / line.cpp)

The geometric helpers `distance(a, b)` (Euclidean chord length),
`distance(a, b, c)` (perpendicular distance from `c` to the line through
`a` and `b`), `average` and `stdev` live in math.h, which is not among the
sources.  Modelled from the spec: the perpendicular distance is
|cross(b - a, c - a)| / L where L = sqrt(distSq a b), the mean of an empty
list is 0, and the standard deviation is the square root of the population
variance.

To stay inside the rationals the embedding carries the distance
*numerators* |cross| and the *squared* chord length S = L².  The source's
comparisons are restated multiplied through by L > 0, which is exact:
`avg < maxError*L` becomes `avgN < maxError*S`, and
`stdev < maxError*L/2`, i.e. `sqrt(varN)/L < maxError*L/2`, becomes
`0 < maxError ∧ 4*varN < maxError²*S²`.  When L = 0 the source divides by
zero, every comparison on the resulting NaN/infinite values is false, and
the embedding requires `0 < S` accordingly.  `lineError`, a quotient, is
exactly `avgN / S` (0 at a degenerate chord, where the source yields NaN).
-/

/-- From line.h: `struct Line { Coord p1; Coord p2; double length; }`.
The stored length is the Euclidean chord length; the embedding stores its
square (`distSq p1 p2`), which determines it: no claim uses the value. -/
structure Line where
  p1 : Coord
  p2 : Coord
  lengthSq : Int
deriving DecidableEq, Repr

/-- Squared Euclidean distance between two coordinates. -/
def distSq (a b : Coord) : Int :=
  (b.x - a.x) ^ 2 + (b.y - a.y) ^ 2

/-- `Line(p1, p2)`: the two-argument constructor computes the length. -/
def Line.mk2 (a b : Coord) : Line := ⟨a, b, distSq a b⟩

/-- Cross product (b - a) × (c - a); the perpendicular distance from `c`
to the chord (a, b) is |cross| / sqrt (distSq a b). -/
def cross2 (a b c : Coord) : Int :=
  (b.x - a.x) * (c.y - a.y) - (b.y - a.y) * (c.x - a.x)

/-- `path[k]` with the C++ vector's unchecked read modelled as a default
of (0, 0) (reached only on reads that are undefined behaviour in C++). -/
def getP (path : List Coord) (k : Nat) : Coord := path.getD k ⟨0, 0⟩

/-- Mean of a list of rationals (0 for the empty list, since 0/0 = 0). -/
def average (l : List ℚ) : ℚ := l.sum / (l.length : ℚ)

/-- Population variance of a list of rationals. -/
def variance (l : List ℚ) : ℚ :=
  average (l.map (fun x => (x - average l) ^ 2))

/-- The index walk `k = start; while (k != j) { emit k; k = (k+1) % size }`
with explicit fuel (the callers pass fuel ≥ size + 1, enough to reach `j`
whenever size > 0 and j < size). -/
def ksAux (size j : Nat) : Nat → Nat → List Nat
  | 0, _ => []
  | fuel + 1, k => if k = j then [] else k :: ksAux size j fuel ((k + 1) % size)

/-- Indices visited by `isLine`'s loop
`for (k = i+1; k != j; k = (k+1) % path.size())` (the first index `i+1` is
not reduced modulo the size, exactly as in the source). -/
def isLineKs (size i j : Nat) : List Nat := ksAux size j (size + 2) (i + 1)

/-- Indices visited by `lineError`'s loop
`for (k = (i+1) % size; k != j; k = (k+1) % size)`. -/
def lineErrorKs (size i j : Nat) : List Nat :=
  ksAux size j (size + 1) ((i + 1) % size)

/-- The perpendicular-distance numerators |cross| collected by `isLine`
for the points strictly between `i` and `j` (walking forward, wrapping). -/
def isLineDist (path : List Coord) (i j : Nat) : List ℚ :=
  (isLineKs path.length i j).map
    (fun k => |((cross2 (getP path i) (getP path j) (getP path k) : Int) : ℚ)|)

/-- The perpendicular-distance numerators collected by `lineError` (both
indices first reduced modulo the path size, as in the source). -/
def lineErrorDist (path : List Coord) (i j : Nat) : List ℚ :=
  let size := path.length
  (lineErrorKs size (i % size) (j % size)).map
    (fun k =>
      |((cross2 (getP path (i % size)) (getP path (j % size)) (getP path k) : Int) : ℚ)|)

/-- `isLine(path, i, j, maxError)`: false when an index is out of range;
otherwise accept when the mean perpendicular distance is below
`maxError * chordLength` and the standard deviation below half of that —
stated here in the exact square-root-free form explained above. -/
def isLine (path : List Coord) (i j : Int) (maxError : ℚ) : Bool :=
  if i < 0 ∨ j < 0 ∨ (path.length : Int) ≤ i ∨ (path.length : Int) ≤ j then
    false
  else
    let dist := isLineDist path i.toNat j.toNat
    let s := ((distSq (getP path i.toNat) (getP path j.toNat) : Int) : ℚ)
    decide (0 < s ∧ average dist < maxError * s ∧
            0 < maxError ∧ 4 * variance dist < maxError ^ 2 * s ^ 2)

/-- `lineError(path, i, j)` = mean perpendicular distance divided by chord
length = avgN / S exactly.  The source takes `int` indices but reduces
them modulo the size immediately; every caller in the repository passes
nonnegative values, so the embedding uses `Nat`. -/
def lineError (path : List Coord) (i j : Nat) : ℚ :=
  let size := path.length
  average (lineErrorDist path i j) /
    ((distSq (getP path (i % size)) (getP path (j % size)) : Int) : ℚ)

/-- The extension loop of strategy A:
`for ( ; i + largerLength < size; ++largerLength) if (!isLine(path, i,
i+largerLength, maxError)) break;` — returns the final `largerLength`.
The first argument is the remaining iteration budget; callers pass `size`,
which the guard `i + ll < size` makes sufficient. -/
def extendA (path : List Coord) (mE : ℚ) (size i : Nat) : Nat → Nat → Nat
  | 0, ll => ll
  | rem + 1, ll =>
      if i + ll < size ∧ isLine path (i : Int) ((i + ll : Nat) : Int) mE then
        extendA path mE size i rem (ll + 1)
      else ll

/-- The first loop of `findLinesHalvingExtending`: slide `i` forward while
halving the window, stop when the window is below the minimum length 10,
and on the first `isLine` success grow the end (`extendA`), subtract one,
and record `(firstStart, firstEnd)`.  The budget argument counts the
remaining values of `i`; callers pass `size`. -/
def firstSearchA (path : List Coord) (mE : ℚ) (size : Nat) :
    Nat → Nat → Nat → Option (Nat × Nat)
  | 0, _, _ => none
  | rem + 1, i, length =>
      if size ≤ i then none
      else if length < 10 then none
      else if isLine path (i : Int) ((i + length : Nat) : Int) mE then
        some (i, (i + (extendA path mE size i size (length + 1) - 1)) % size)
      else firstSearchA path mE size rem (i + 1) (length / 2)

/-- The second loop of `findLinesHalvingExtending`: from `firstEnd` up to
`size + firstStart`, look for one more line with the fixed minimum window
10, grow it, record it, and break (so at most one line is produced, which
the source expresses with `break` after `push_back`). -/
def secondSearchA (path : List Coord) (mE : ℚ) (size fs : Nat) :
    Nat → Nat → Option Line
  | 0, _ => none
  | rem + 1, i =>
      if i < size + fs then
        if isLine path (i : Int) ((i + 10 : Nat) : Int) mE then
          some (Line.mk2 (getP path i)
            (getP path ((i + (extendA path mE size i size 11 - 1)) % size)))
        else secondSearchA path mE size fs rem (i + 1)
      else none

/-- Strategy A, `findLinesHalvingExtending(path, maxError)` with
`minLength = 10`: empty input gives no lines; a whole path that is a line
with chord length above the minimum (sqrt S > 10 iff S > 100) gives that
single segment; otherwise the halving search finds at most one first
segment and the follow-up search at most one more. -/
def findLinesHalvingExtending (path : List Coord) (maxError : ℚ) : List Line :=
  if path.isEmpty then []
  else
    let size := path.length
    if isLine path 0 ((size : Int) - 1) maxError ∧
       (10 : Int) * 10 < distSq (getP path 0) (getP path (size - 1)) then
      [⟨getP path 0, getP path (size - 1), distSq (getP path 0) (getP path (size - 1))⟩]
    else
      match firstSearchA path maxError size size 0 (size / 2) with
      | none => []
      | some (fs, fe) =>
          Line.mk2 (getP path fs) (getP path fe) ::
            (secondSearchA path maxError size fs (size + fs + 1) fe).toList

/-- The loop body of `findLargerLength`: while `(start + largerLength) %
size < start`, compute the error of the extended line; an improvement
resets the non-improving counter, otherwise the counter grows up to
`maxLookAhead`, after which the loop breaks.  Returns the final
(`largerLength`, `increasing`).  The fuel is an upper bound on the
iteration count of the source loop, which always terminates (once the
current error reaches the minimum of the finitely many line errors the
counter can only grow). -/
def fllAux (path : List Coord) (size start maxLA : Nat) :
    Nat → ℚ → Nat → Nat → Nat × Nat
  | 0, _, ll, inc => (ll, inc)
  | fuel + 1, err, ll, inc =>
      if (start + ll) % size < start then
        let newError := lineError path start (start + ll)
        if newError < err then fllAux path size start maxLA fuel newError (ll + 1) 0
        else if inc < maxLA then fllAux path size start maxLA fuel err (ll + 1) (inc + 1)
        else (ll, inc)
      else (ll, inc)

/-- `findLargerLength(path, currentError, start, currentLength,
maxLookAhead)`: run the extension loop from `currentLength + 1`, then
subtract `increasing + 1` from the final length. -/
def findLargerLength (path : List Coord) (currentError : ℚ)
    (start currentLength maxLookAhead : Nat) : Nat :=
  let size := path.length
  let r := fllAux path size start maxLookAhead
      ((size + 2) * (maxLookAhead + 2)) currentError (currentLength + 1) 0
  r.1 - (r.2 + 1)

/-- The first loop of `findLinesExtendingDecreasingError`: as in strategy
A but accepting on `lineError < maxError` (minimum length 100, lookahead
25); returns `(firstStart, firstEnd, length at success)`. -/
def firstSearchB (path : List Coord) (mE : ℚ) (size : Nat) :
    Nat → Nat → Nat → Option (Nat × Nat × Nat)
  | 0, _, _ => none
  | rem + 1, i, length =>
      if size ≤ i then none
      else if length < 100 then none
      else
        let ce := lineError path i (i + length)
        if ce < mE then
          some (i, (i + findLargerLength path ce i length 25) % size, length)
        else firstSearchB path mE size rem (i + 1) (length / 2)

/-- The second loop of `findLinesExtendingDecreasingError` (`linejump =
1`): from `firstEnd` to `size + firstStart`, each acceptance records a
line and jumps `i` past it (`i += largerLength` and the loop's `i +=
linejump`). -/
def secondSearchB (path : List Coord) (mE : ℚ) (size fs length : Nat) :
    Nat → Nat → List Line
  | 0, _ => []
  | rem + 1, i =>
      if i < size + fs then
        let ce := lineError path i (i + length)
        if ce < mE then
          let ll := findLargerLength path ce i length 25
          Line.mk2 (getP path (i % size)) (getP path ((i + ll) % size)) ::
            secondSearchB path mE size fs length rem (i + ll + 1)
        else secondSearchB path mE size fs length rem (i + 1)
      else []

/-- Strategy B, `findLinesExtendingDecreasingError(path, maxError)` with
`minLength = 100`: empty input gives no lines; otherwise the halving
search finds a first segment (or gives up), the window is halved once
more, and if still at least the minimum the rest of the path is scanned
for further segments. -/
def findLinesExtendingDecreasingError (path : List Coord) (maxError : ℚ) :
    List Line :=
  if path.isEmpty then []
  else
    let size := path.length
    match firstSearchB path maxError size size 0 (size / 2) with
    | none => []
    | some (fs, fe, length) =>
        let len2 := length / 2
        if len2 < 100 then [Line.mk2 (getP path fs) (getP path fe)]
        else
          Line.mk2 (getP path fs) (getP path fe) ::
            secondSearchB path maxError size fs len2 (size + fs + 1) fe

/-!
## Derived notions used by the statements
-/

/-- The labeler's neighbour relation between two same-colour in-bounds
pixels: one is among the other's inspected neighbours (left, up-left, up,
up-right). -/
def sameColorAdj {n : Nat} (img : Pixels n) (p q : Coord) : Prop :=
  inB img.w img.h p = true ∧ inB img.w img.h q = true ∧
  img.color p = img.color q ∧ (q ∈ nbrsOf p ∨ p ∈ nbrsOf q)

/-- Connection by a chain of same-colour adjacencies. -/
def connectedPix {n : Nat} (img : Pixels n) : Coord → Coord → Prop :=
  Relation.ReflTransGen (sameColorAdj img)

/-- Invariant of the assignment pass after processing the raster prefix
`visited`: labels of visited pixels are positive, below `next_label` and
registered; unvisited pixels are background; matching neighbours share an
equivalence class; and every registered label was freshly assigned at a
position before which all labels were smaller. -/
structure P1Inv {n : Nat} (img : Pixels n) (visited : List Coord)
    (st : LabState) : Prop where
  next_pos : 1 ≤ st.next
  nf_eq : st.set.nf = 0
  keys_bound : ∀ l : Int, (st.set.classOf l).isSome → 1 ≤ l ∧ l < st.next
  keys_nodup : (st.set.elems.map Prod.fst).Nodup
  labels_mem : ∀ p ∈ visited,
      1 ≤ st.labels p ∧ st.labels p < st.next ∧ (st.set.classOf (st.labels p)).isSome
  unvisited : ∀ p, p ∉ visited → st.labels p = default_label
  adj_classes : ∀ p ∈ visited, ∀ q ∈ nbrsOf p, inB img.w img.h q = true →
      img.color q = img.color p →
      st.set.classOf (st.labels q) = st.set.classOf (st.labels p)
  alloc : ∀ l : Int, (st.set.classOf l).isSome →
      ∃ a ∈ visited, st.labels a = l ∧ ∀ b ∈ visited, rasterLt b a → st.labels b < l

/-- Invariant of the resolution pass after processing the raster prefix
`visited`, over the fixed assignment-pass result (`set`, `lab1`):
processed pixels carry their representative, the registry is sorted by
key, and each entry records the earliest and a latest sighting of its
key. -/
structure P2Inv (set : DisjointSet) (lab1 : Coord → Int) (visited : List Coord)
    (st : Pass2State) : Prop where
  lab_nv : ∀ p, p ∉ visited → st.labels p = lab1 p
  lab_v : ∀ p ∈ visited, st.labels p = set.find (lab1 p)
  sorted : (st.objs.map Prod.fst).Pairwise (· < ·)
  first_res : ∀ k pr, lookupPair st.objs k = some pr →
      pr.first ∈ visited ∧ set.find (lab1 pr.first) = k ∧
      ∀ q ∈ visited, set.find (lab1 q) = k → rasterLE pr.first q
  last_ord : ∀ k pr, lookupPair st.objs k = some pr →
      rasterLE pr.first pr.last ∧ pr.last ∈ visited
  complete : ∀ q ∈ visited, ∃ pr, lookupPair st.objs (set.find (lab1 q)) = some pr

/-!
## Basic order and list lemmas
-/

theorem rasterLt_irrefl (p : Coord) : ¬ rasterLt p p := by
  unfold rasterLt; omega

theorem rasterLt_asymm {p q : Coord} (h : rasterLt p q) : ¬ rasterLt q p := by
  unfold rasterLt at *; omega

theorem rasterLt_trans {p q r : Coord} (h1 : rasterLt p q) (h2 : rasterLt q r) :
    rasterLt p r := by
  unfold rasterLt at *; omega

theorem rasterLt_tri (p q : Coord) : rasterLt p q ∨ p = q ∨ rasterLt q p := by
  rcases p with ⟨px, py⟩; rcases q with ⟨qx, qy⟩
  unfold rasterLt
  simp only [Coord.mk.injEq]
  omega

theorem rasterLt_y_le {p q : Coord} (h : rasterLt p q) : p.y ≤ q.y := by
  unfold rasterLt at h; omega

theorem rasterLE_y_le {p q : Coord} (h : rasterLE p q) : p.y ≤ q.y := by
  rcases h with h | h
  · exact rasterLt_y_le h
  · rw [h]

theorem foldr_min_le_init (L : List Int) (a : Int) : L.foldr min a ≤ a := by
  induction L with
  | nil => exact le_refl a
  | cons c L ih => exact le_trans (min_le_right _ _) ih

theorem foldr_min_le_mem (L : List Int) (a b : Int) (hb : b ∈ L) :
    L.foldr min a ≤ b := by
  induction L with
  | nil => cases hb
  | cons c L ih =>
      rcases List.mem_cons.mp hb with h | h
      · rw [h]; exact min_le_left _ _
      · exact le_trans (min_le_right _ _) (ih h)

theorem foldr_min_mem_or (L : List Int) (a : Int) :
    L.foldr min a = a ∨ L.foldr min a ∈ L := by
  induction L with
  | nil => left; rfl
  | cons c L ih =>
      rcases min_cases c (L.foldr min a) with ⟨he, _⟩ | ⟨he, _⟩
      · right; rw [List.foldr_cons, he]; exact List.mem_cons_self _ _
      · rcases ih with h | h
        · left; rw [List.foldr_cons, he, h]
        · right; rw [List.foldr_cons, he]; exact List.mem_cons_of_mem _ h

theorem foldr_min_eq_of_mem (L : List Int) (a b : Int) (ha : a ∈ L) (hb : b ∈ L) :
    L.foldr min a = L.foldr min b := by
  apply le_antisymm
  · rcases foldr_min_mem_or L b with h | h
    · rw [h]; exact foldr_min_le_mem L a b hb
    · exact foldr_min_le_mem L a _ h
  · rcases foldr_min_mem_or L a with h | h
    · rw [h]; exact foldr_min_le_mem L b a ha
    · exact foldr_min_le_mem L b _ h

theorem foldr_min_lb (L : List Int) (a m : Int) (hm : ∀ x ∈ L, m ≤ x)
    (hma : m ≤ a) : m ≤ L.foldr min a := by
  induction L with
  | nil => exact hma
  | cons c L ih =>
      refine le_min (hm c (List.mem_cons_self _ _)) (ih ?_)
      intro x hx; exact hm x (List.mem_cons_of_mem _ hx)

/-!
## Lookup lemmas
-/

theorem lookupC_mem {es : List (Int × Nat)} {l : Int} {c : Nat}
    (h : lookupC es l = some c) : (l, c) ∈ es := by
  induction es with
  | nil => cases h
  | cons e rest ih =>
      rcases e with ⟨k, c0⟩
      by_cases hk : l = k
      · subst hk
        rw [show lookupC ((l, c0) :: rest) l = some c0 by rw [lookupC]; simp] at h
        cases h
        exact List.mem_cons_self _ _
      · simp only [lookupC, if_neg hk] at h
        exact List.mem_cons_of_mem _ (ih h)

theorem lookupC_isSome_iff {es : List (Int × Nat)} {l : Int} :
    (lookupC es l).isSome ↔ l ∈ es.map Prod.fst := by
  induction es with
  | nil => simp [lookupC]
  | cons e rest ih =>
      rcases e with ⟨k, c0⟩
      by_cases hk : l = k
      · subst hk; simp [lookupC]
      · simp [lookupC, if_neg hk, ih, hk]

theorem lookupC_eq_of_mem_nodup {es : List (Int × Nat)} {l : Int} {c : Nat}
    (hnd : (es.map Prod.fst).Nodup) (hm : (l, c) ∈ es) : lookupC es l = some c := by
  induction es with
  | nil => cases hm
  | cons e rest ih =>
      rcases e with ⟨k, c0⟩
      simp only [List.map_cons, List.nodup_cons] at hnd
      rcases List.mem_cons.mp hm with h | h
      · simp only [Prod.mk.injEq] at h
        simp [lookupC, h.1, h.2]
      · by_cases hk : l = k
        · exfalso
          subst hk
          exact hnd.1 (List.mem_map.mpr ⟨(l, c), h, rfl⟩)
        · simp only [lookupC, if_neg hk]
          exact ih hnd.2 h

theorem lookupC_map_snd (es : List (Int × Nat)) (l : Int) (f : Nat → Nat) :
    lookupC (es.map (fun p => (p.1, f p.2))) l = (lookupC es l).map f := by
  induction es with
  | nil => rfl
  | cons e rest ih =>
      rcases e with ⟨k, c0⟩
      by_cases hk : l = k
      · subst hk; simp [lookupC]
      · simp [lookupC, if_neg hk, ih]

/-!
## Union-find lemmas
-/

theorem DisjointSet.join_eq_self {s : DisjointSet} {a b : Int}
    (h : s.classOf a = none ∨ s.classOf b = none) : s.join a b = s := by
  unfold DisjointSet.join
  rcases hca : s.classOf a with _ | ca
  · rfl
  rcases hcb : s.classOf b with _ | cb
  · rfl
  rcases h with h | h
  · rw [hca] at h; cases h
  · rw [hcb] at h; cases h

theorem DisjointSet.classOf_join {s : DisjointSet} {a b : Int} {ca cb : Nat}
    (ha : s.classOf a = some ca) (hb : s.classOf b = some cb) (l : Int) :
    (s.join a b).classOf l =
      (s.classOf l).map (fun c => if c = cb then ca else c) := by
  unfold DisjointSet.join
  rw [ha, hb]
  show lookupC (s.elems.map (fun p => (p.1, if p.2 = cb then ca else p.2))) l = _
  exact lookupC_map_snd s.elems l (fun c => if c = cb then ca else c)

theorem DisjointSet.join_pres_eq (s : DisjointSet) (a b l l' : Int)
    (h : s.classOf l = s.classOf l') :
    (s.join a b).classOf l = (s.join a b).classOf l' := by
  rcases hca : s.classOf a with _ | ca
  · rw [DisjointSet.join_eq_self (Or.inl hca)]; exact h
  rcases hcb : s.classOf b with _ | cb
  · rw [DisjointSet.join_eq_self (Or.inr hcb)]; exact h
  rw [DisjointSet.classOf_join hca hcb, DisjointSet.classOf_join hca hcb, h]

theorem DisjointSet.join_pres_isSome (s : DisjointSet) (a b l : Int)
    (h : (s.classOf l).isSome) : ((s.join a b).classOf l).isSome := by
  rcases hca : s.classOf a with _ | ca
  · rw [DisjointSet.join_eq_self (Or.inl hca)]; exact h
  rcases hcb : s.classOf b with _ | cb
  · rw [DisjointSet.join_eq_self (Or.inr hcb)]; exact h
  rw [DisjointSet.classOf_join hca hcb]
  simpa using h

theorem DisjointSet.join_eq_after {s : DisjointSet} {a b : Int} {ca cb : Nat}
    (ha : s.classOf a = some ca) (hb : s.classOf b = some cb) :
    (s.join a b).classOf b = (s.join a b).classOf a := by
  rw [DisjointSet.classOf_join ha hb, DisjointSet.classOf_join ha hb, ha, hb]
  simp only [Option.map_some']
  congr 1
  by_cases hc : ca = cb <;> simp [hc]

theorem DisjointSet.keys_join (s : DisjointSet) (a b : Int) :
    (s.join a b).elems.map Prod.fst = s.elems.map Prod.fst := by
  unfold DisjointSet.join
  rcases s.classOf a with _ | ca
  · rfl
  rcases s.classOf b with _ | cb
  · rfl
  simp [List.map_map, Function.comp]

theorem DisjointSet.nf_join (s : DisjointSet) (a b : Int) :
    (s.join a b).nf = s.nf := by
  unfold DisjointSet.join
  rcases s.classOf a with _ | ca
  · rfl
  rcases s.classOf b with _ | cb
  · rfl
  rfl

theorem DisjointSet.nf_add (s : DisjointSet) (l : Int) : (s.add l).nf = s.nf := by
  unfold DisjointSet.add
  split <;> rfl

theorem DisjointSet.classOf_add_ne {s : DisjointSet} {l m : Int} (h : m ≠ l) :
    (s.add l).classOf m = s.classOf m := by
  unfold DisjointSet.add
  split
  · rfl
  · show lookupC ((l, s.nextId) :: s.elems) m = _
    rw [lookupC, if_neg h]
    rfl

theorem DisjointSet.classOf_add_self {s : DisjointSet} {l : Int}
    (h : s.classOf l = none) : (s.add l).classOf l = some s.nextId := by
  unfold DisjointSet.add
  rw [h]
  show lookupC ((l, s.nextId) :: s.elems) l = _
  rw [lookupC, if_pos rfl]

theorem DisjointSet.keys_add_fresh {s : DisjointSet} {l : Int}
    (h : s.classOf l = none) :
    (s.add l).elems.map Prod.fst = l :: s.elems.map Prod.fst := by
  unfold DisjointSet.add
  rw [h]
  rfl

theorem joinFold_nf (eq : List Int) (s : DisjointSet) (l0 : Int) :
    ((eq.foldl (fun t x => t.join l0 x) s)).nf = s.nf := by
  induction eq generalizing s with
  | nil => rfl
  | cons y rest ih =>
      rw [List.foldl_cons, ih]
      exact DisjointSet.nf_join s l0 y

theorem joinFold_keys (eq : List Int) (s : DisjointSet) (l0 : Int) :
    ((eq.foldl (fun t x => t.join l0 x) s)).elems.map Prod.fst =
      s.elems.map Prod.fst := by
  induction eq generalizing s with
  | nil => rfl
  | cons y rest ih =>
      rw [List.foldl_cons, ih]
      exact DisjointSet.keys_join s l0 y

theorem joinFold_pres_eq (eq : List Int) (s : DisjointSet) (l0 l l' : Int)
    (h : s.classOf l = s.classOf l') :
    ((eq.foldl (fun t x => t.join l0 x) s)).classOf l =
      ((eq.foldl (fun t x => t.join l0 x) s)).classOf l' := by
  induction eq generalizing s with
  | nil => exact h
  | cons y rest ih =>
      rw [List.foldl_cons]
      exact ih _ (DisjointSet.join_pres_eq s l0 y l l' h)

theorem joinFold_isSome_iff (eq : List Int) (s : DisjointSet) (l0 l : Int) :
    (((eq.foldl (fun t x => t.join l0 x) s)).classOf l).isSome ↔
      (s.classOf l).isSome := by
  show (lookupC _ l).isSome ↔ (lookupC _ l).isSome
  rw [lookupC_isSome_iff, lookupC_isSome_iff, joinFold_keys]

theorem joinFold_eq_l0 (eq : List Int) (s : DisjointSet) (l0 : Int)
    (h0 : (s.classOf l0).isSome) (hall : ∀ x ∈ eq, (s.classOf x).isSome) :
    ∀ x ∈ eq, ((eq.foldl (fun t y => t.join l0 y) s)).classOf x =
      ((eq.foldl (fun t y => t.join l0 y) s)).classOf l0 := by
  induction eq generalizing s with
  | nil => intro x hx; cases hx
  | cons y rest ih =>
      intro x hx
      rw [List.foldl_cons]
      rcases List.mem_cons.mp hx with hxy | hxr
      · subst hxy
        obtain ⟨ca, hca⟩ := Option.isSome_iff_exists.mp h0
        obtain ⟨cx, hcx⟩ := Option.isSome_iff_exists.mp (hall x (List.mem_cons_self _ _))
        exact joinFold_pres_eq rest (s.join l0 x) l0 x l0
          (DisjointSet.join_eq_after hca hcx)
      · exact ih (s.join l0 y)
          (DisjointSet.join_pres_isSome s l0 y l0 h0)
          (fun z hz => DisjointSet.join_pres_isSome s l0 y z
            (hall z (List.mem_cons_of_mem _ hz))) x hxr

theorem mem_members_of_lookup {s : DisjointSet} {l : Int} {c : Nat}
    (h : s.classOf l = some c) : l ∈ s.members c := by
  refine List.mem_map.mpr ⟨(l, c), List.mem_filter.mpr ⟨lookupC_mem h, ?_⟩, rfl⟩
  simp

theorem members_prop {s : DisjointSet} {c : Nat} {x : Int}
    (h : x ∈ s.members c) : (x, c) ∈ s.elems := by
  obtain ⟨p, hpf, hpe⟩ := List.mem_map.mp h
  obtain ⟨hpm, hpc⟩ := List.mem_filter.mp hpf
  have : p.2 = c := by simpa using hpc
  rcases p with ⟨p1, p2⟩
  cases hpe
  cases this
  exact hpm

theorem find_eq_foldr {s : DisjointSet} {l : Int} {c : Nat}
    (h : s.classOf l = some c) : s.find l = (s.members c).foldr min l := by
  unfold DisjointSet.find
  rw [h]

theorem find_eq_of_classOf_eq {s : DisjointSet} {l l' : Int} {c : Nat}
    (h : s.classOf l = some c) (h' : s.classOf l' = some c) :
    s.find l = s.find l' := by
  rw [find_eq_foldr h, find_eq_foldr h']
  exact foldr_min_eq_of_mem _ _ _ (mem_members_of_lookup h) (mem_members_of_lookup h')

theorem find_le_self {s : DisjointSet} {l : Int} {c : Nat}
    (h : s.classOf l = some c) : s.find l ≤ l := by
  unfold DisjointSet.find
  rw [h]
  exact foldr_min_le_init _ _

theorem one_le_find {s : DisjointSet} {l : Int} {c : Nat}
    (h : s.classOf l = some c) (hk : ∀ k : Int, (s.classOf k).isSome → 1 ≤ k)
    (hl : 1 ≤ l) : 1 ≤ s.find l := by
  unfold DisjointSet.find
  rw [h]
  refine foldr_min_lb _ _ _ (fun x hx => ?_) hl
  refine hk x (lookupC_isSome_iff.mpr ?_)
  exact List.mem_map.mpr ⟨(x, c), members_prop hx, rfl⟩

theorem find_mem_members {s : DisjointSet} {l : Int} {c : Nat}
    (h : s.classOf l = some c) : s.find l ∈ s.members c := by
  rw [find_eq_foldr h]
  rcases foldr_min_mem_or (s.members c) l with he | hm
  · rw [he]; exact mem_members_of_lookup h
  · exact hm

theorem classOf_find {s : DisjointSet} {l : Int} {c : Nat}
    (h : s.classOf l = some c) (hnd : (s.elems.map Prod.fst).Nodup) :
    s.classOf (s.find l) = some c :=
  lookupC_eq_of_mem_nodup hnd (members_prop (find_mem_members h))

theorem find_find {s : DisjointSet} {l : Int} {c : Nat}
    (h : s.classOf l = some c) (hnd : (s.elems.map Prod.fst).Nodup) :
    s.find (s.find l) = s.find l := by
  have hcf := classOf_find h hnd
  have hm : (s.members c).foldr min l ∈ s.members c :=
    (find_eq_foldr h) ▸ find_mem_members h
  rw [find_eq_foldr hcf, find_eq_foldr h]
  exact foldr_min_eq_of_mem _ _ _ hm (mem_members_of_lookup h)

/-!
## Raster-order lemmas
-/

theorem mem_raster_iff {w h : Int} {p : Coord} :
    p ∈ raster w h ↔ inB w h p = true := by
  rcases p with ⟨px, py⟩
  constructor
  · intro hm
    unfold raster at hm
    obtain ⟨y, hy, hp⟩ := List.mem_flatMap.mp hm
    obtain ⟨x, hx, he⟩ := List.mem_map.mp hp
    rw [List.mem_range] at hy hx
    rw [Coord.mk.injEq] at he
    simp only [inB, decide_eq_true_eq]
    omega
  · intro hb
    simp only [inB, decide_eq_true_eq] at hb
    unfold raster
    refine List.mem_flatMap.mpr ⟨py.toNat, ?_, ?_⟩
    · rw [List.mem_range]; omega
    · refine List.mem_map.mpr ⟨px.toNat, ?_, ?_⟩
      · rw [List.mem_range]; omega
      · rw [Coord.mk.injEq]
        constructor <;> omega

theorem raster_pairwise (w h : Int) : (raster w h).Pairwise rasterLt := by
  unfold raster
  rw [List.pairwise_flatMap]
  constructor
  · intro y _
    rw [List.pairwise_map]
    refine (List.pairwise_lt_range w.toNat).imp ?_
    intro a b hab
    unfold rasterLt
    right
    refine ⟨rfl, ?_⟩
    show (a : Int) < (b : Int)
    exact_mod_cast hab
  · refine (List.pairwise_lt_range h.toNat).imp ?_
    intro y1 y2 h12 c1 hc1 c2 hc2
    obtain ⟨x1, _, he1⟩ := List.mem_map.mp hc1
    obtain ⟨x2, _, he2⟩ := List.mem_map.mp hc2
    subst he1; subst he2
    unfold rasterLt
    left
    show (y1 : Int) < (y2 : Int)
    exact_mod_cast h12

theorem raster_nodup (w h : Int) : (raster w h).Nodup :=
  (raster_pairwise w h).imp (fun hlt => by
    intro he; subst he; exact rasterLt_irrefl _ hlt)

/-- Splitting a raster-sorted list at the element about to be processed:
everything visited is raster-before it, it has not been visited, any
in-list element raster-before it has been visited, and everything
remaining is raster-after it. -/
theorem pairwise_append_cons {L l1 l2 : List Coord} {pt : Coord}
    (hp : L.Pairwise rasterLt) (he : L = l1 ++ pt :: l2) :
    (∀ b ∈ l1, rasterLt b pt) ∧ pt ∉ l1 ∧
    (∀ q ∈ L, rasterLt q pt → q ∈ l1) ∧ (∀ q ∈ l2, rasterLt pt q) := by
  subst he
  rw [List.pairwise_append] at hp
  obtain ⟨_, hp2, hcross⟩ := hp
  have hhead : ∀ b ∈ l1, rasterLt b pt :=
    fun b hb => hcross b hb pt (List.mem_cons_self _ _)
  have htail : ∀ q ∈ l2, rasterLt pt q := (List.pairwise_cons.mp hp2).1
  refine ⟨hhead, fun hmem => rasterLt_irrefl pt (hhead pt hmem), ?_, htail⟩
  intro q hq hqlt
  rcases List.mem_append.mp hq with h1 | h2
  · exact h1
  · rcases List.mem_cons.mp h2 with hq2 | hq2
    · exact absurd (hq2 ▸ hqlt) (rasterLt_irrefl pt)
    · exact absurd hqlt (rasterLt_asymm (htail q hq2))

theorem updF_self (f : Coord → Int) (p : Coord) (v : Int) : updF f p v p = v := by
  unfold updF; rw [if_pos rfl]

theorem updF_ne (f : Coord → Int) {p q : Coord} (v : Int) (h : q ≠ p) :
    updF f p v q = f q := by
  unfold updF; rw [if_neg h]

/-!
## Assignment-pass invariant
-/

theorem labState_mk_labels (f : Coord → Int) (s : DisjointSet) (nx : Int) :
    (LabState.mk f s nx).labels = f := rfl

theorem labState_mk_set (f : Coord → Int) (s : DisjointSet) (nx : Int) :
    (LabState.mk f s nx).set = s := rfl

theorem labState_mk_next (f : Coord → Int) (s : DisjointSet) (nx : Int) :
    (LabState.mk f s nx).next = nx := rfl

theorem nbr_rasterLt {pt q : Coord} (hq : q ∈ nbrsOf pt) : rasterLt q pt := by
  unfold nbrsOf at hq
  rcases pt with ⟨ptx, pty⟩
  simp only [List.mem_cons, List.not_mem_nil, or_false] at hq
  rcases hq with h | h | h | h <;> subst h <;> unfold rasterLt <;> simp

theorem mem_matched_iff {n : Nat} {img : Pixels n} {pt q : Coord} :
    q ∈ matchedNeighbors img pt ↔
      q ∈ nbrsOf pt ∧ inB img.w img.h q = true ∧ img.color q = img.color pt := by
  unfold matchedNeighbors
  rw [List.mem_filter]
  simp [and_assoc]

theorem p1inv_step {n : Nat} {img : Pixels n} {visited rest : List Coord}
    {pt : Coord} {st : LabState} (hI : P1Inv img visited st)
    (hsplit : raster img.w img.h = visited ++ pt :: rest) :
    P1Inv img (visited ++ [pt]) (pass1Step img st pt) := by
  obtain ⟨hvlt, hptnv, hmemv, _⟩ :=
    pairwise_append_cons (raster_pairwise img.w img.h) hsplit
  have hnbr_in_visited : ∀ q ∈ matchedNeighbors img pt, q ∈ visited := by
    intro q hq
    obtain ⟨hqn, hqb, _⟩ := mem_matched_iff.mp hq
    exact hmemv q (mem_raster_iff.mpr hqb) (nbr_rasterLt hqn)
  have hmem_or : ∀ p, p ∈ visited ++ [pt] → p ∈ visited ∨ p = pt := by
    intro p hp
    rcases List.mem_append.mp hp with h | h
    · exact Or.inl h
    · exact Or.inr (List.mem_singleton.mp h)
  have hv_ne_pt : ∀ p, p ∈ visited → p ≠ pt :=
    fun p hp => ne_of_mem_of_not_mem hp hptnv
  cases hms : (matchedNeighbors img pt).map st.labels with
  | nil =>
      have hstep : pass1Step img st pt =
          ⟨updF st.labels pt st.next, st.set.add st.next, st.next + 1⟩ := by
        unfold pass1Step; rw [hms]
      rw [hstep]
      have hfresh : st.set.classOf st.next = none := by
        cases hc : st.set.classOf st.next with
        | none => rfl
        | some c =>
            have := (hI.keys_bound st.next (by rw [hc]; rfl)).2
            omega
      refine ⟨?_, ?_, ?_, ?_, ?_, ?_, ?_, ?_⟩ <;>
        simp only [labState_mk_labels, labState_mk_set, labState_mk_next]
      · have := hI.next_pos; omega
      · rw [DisjointSet.nf_add]; exact hI.nf_eq
      · intro l hl
        by_cases hln : l = st.next
        · subst hln; exact ⟨hI.next_pos, by omega⟩
        · rw [DisjointSet.classOf_add_ne hln] at hl
          have := hI.keys_bound l hl
          exact ⟨this.1, by omega⟩
      · rw [DisjointSet.keys_add_fresh hfresh]
        refine List.nodup_cons.mpr ⟨?_, hI.keys_nodup⟩
        intro hmem
        have : (st.set.classOf st.next).isSome := lookupC_isSome_iff.mpr hmem
        rw [hfresh] at this; cases this
      · intro p hp
        rcases hmem_or p hp with h | h
        · have hne := hv_ne_pt p h
          rw [updF_ne _ _ hne]
          obtain ⟨h1, h2, h3⟩ := hI.labels_mem p h
          refine ⟨h1, by omega, ?_⟩
          rw [DisjointSet.classOf_add_ne (by omega)]
          exact h3
        · subst h
          rw [updF_self]
          exact ⟨hI.next_pos, by omega,
            by rw [DisjointSet.classOf_add_self hfresh]; rfl⟩
      · intro p hp
        have hpv : p ∉ visited := fun hv => hp (List.mem_append.mpr (Or.inl hv))
        have hppt : p ≠ pt := fun he => hp (List.mem_append.mpr (Or.inr
          (List.mem_singleton.mpr he)))
        rw [updF_ne _ _ hppt]
        exact hI.unvisited p hpv
      · intro p hp q hqn hqb hqc
        rcases hmem_or p hp with h | h
        · have hqv : q ∈ visited := hmemv q (mem_raster_iff.mpr hqb)
            (rasterLt_trans (nbr_rasterLt hqn) (hvlt p h))
          have hpne := hv_ne_pt p h
          have hqne := hv_ne_pt q hqv
          rw [updF_ne _ _ hpne, updF_ne _ _ hqne]
          rw [DisjointSet.classOf_add_ne (by
              have := (hI.labels_mem q hqv).2.1; omega),
            DisjointSet.classOf_add_ne (by
              have := (hI.labels_mem p h).2.1; omega)]
          exact hI.adj_classes p h q hqn hqb hqc
        · subst h
          exfalso
          have hqm : q ∈ matchedNeighbors img p :=
            mem_matched_iff.mpr ⟨hqn, hqb, hqc⟩
          have : st.labels q ∈ (matchedNeighbors img p).map st.labels :=
            List.mem_map.mpr ⟨q, hqm, rfl⟩
          rw [hms] at this
          cases this
      · intro l hl
        by_cases hln : l = st.next
        · subst hln
          refine ⟨pt, List.mem_append.mpr (Or.inr (List.mem_singleton.mpr rfl)),
            updF_self .., ?_⟩
          intro b hb hblt
          rcases hmem_or b hb with h | h
          · rw [updF_ne _ _ (hv_ne_pt b h)]
            exact (hI.labels_mem b h).2.1
          · subst h; exact absurd hblt (rasterLt_irrefl _)
        · rw [DisjointSet.classOf_add_ne hln] at hl
          obtain ⟨a, ha, hla, hmin⟩ := hI.alloc l hl
          refine ⟨a, List.mem_append.mpr (Or.inl ha), ?_, ?_⟩
          · rw [updF_ne _ _ (hv_ne_pt a ha)]; exact hla
          · intro b hb hblt
            rcases hmem_or b hb with h | h
            · rw [updF_ne _ _ (hv_ne_pt b h)]
              exact hmin b h hblt
            · subst h
              exact absurd hblt (rasterLt_asymm (hvlt a ha))
  | cons l0 restMs =>
      have hstep : pass1Step img st pt =
          ⟨updF st.labels pt l0,
           (restMs.filter (fun l => decide (l ≠ l0))).foldl
             (fun s l => s.join l0 l) st.set,
           st.next⟩ := by
        unfold pass1Step; rw [hms]
      rw [hstep]
      cases hmatched : matchedNeighbors img pt with
      | nil => rw [hmatched] at hms; cases hms
      | cons q0 qs =>
        rw [hmatched, List.map_cons] at hms
        injection hms with hl0 hrestMs
        have hq0v : q0 ∈ visited :=
          hnbr_in_visited q0 (hmatched ▸ List.mem_cons_self _ _)
        have hl0mem := hI.labels_mem q0 hq0v
        rw [hl0] at hl0mem
        have hrestMs_mem : ∀ x ∈ restMs,
            1 ≤ x ∧ x < st.next ∧ (st.set.classOf x).isSome := by
          intro x hx
          rw [← hrestMs] at hx
          obtain ⟨q, hq, hqx⟩ := List.mem_map.mp hx
          have hqv : q ∈ visited :=
            hnbr_in_visited q (hmatched ▸ List.mem_cons_of_mem _ hq)
          exact hqx ▸ hI.labels_mem q hqv
        have heqsub : ∀ x ∈ restMs.filter (fun l => decide (l ≠ l0)), x ∈ restMs :=
          fun x hx => (List.mem_filter.mp hx).1
        have heqS : ∀ x ∈ restMs.filter (fun l => decide (l ≠ l0)),
            (st.set.classOf x).isSome :=
          fun x hx => (hrestMs_mem x (heqsub x hx)).2.2
        have hiff := fun l => joinFold_isSome_iff
          (restMs.filter (fun l => decide (l ≠ l0))) st.set l0 l
        refine ⟨?_, ?_, ?_, ?_, ?_, ?_, ?_, ?_⟩ <;>
          simp only [labState_mk_labels, labState_mk_set, labState_mk_next]
        · exact hI.next_pos
        · rw [joinFold_nf]; exact hI.nf_eq
        · intro l hl
          exact hI.keys_bound l ((hiff l).mp hl)
        · rw [show ((restMs.filter (fun l => decide (l ≠ l0))).foldl
              (fun s l => s.join l0 l) st.set).elems.map Prod.fst =
              st.set.elems.map Prod.fst from joinFold_keys _ _ _]
          exact hI.keys_nodup
        · intro p hp
          rcases hmem_or p hp with h | h
          · rw [updF_ne _ _ (hv_ne_pt p h)]
            obtain ⟨h1, h2, h3⟩ := hI.labels_mem p h
            exact ⟨h1, h2, (hiff _).mpr h3⟩
          · subst h
            rw [updF_self]
            exact ⟨hl0mem.1, hl0mem.2.1, (hiff _).mpr hl0mem.2.2⟩
        · intro p hp
          have hpv : p ∉ visited := fun hv => hp (List.mem_append.mpr (Or.inl hv))
          have hppt : p ≠ pt := fun he => hp (List.mem_append.mpr (Or.inr
            (List.mem_singleton.mpr he)))
          rw [updF_ne _ _ hppt]
          exact hI.unvisited p hpv
        · intro p hp q hqn hqb hqc
          rcases hmem_or p hp with h | h
          · have hqv : q ∈ visited := hmemv q (mem_raster_iff.mpr hqb)
              (rasterLt_trans (nbr_rasterLt hqn) (hvlt p h))
            rw [updF_ne _ _ (hv_ne_pt p h), updF_ne _ _ (hv_ne_pt q hqv)]
            exact joinFold_pres_eq _ _ _ _ _ (hI.adj_classes p h q hqn hqb hqc)
          · subst h
            have hqm : q ∈ matchedNeighbors img p :=
              mem_matched_iff.mpr ⟨hqn, hqb, hqc⟩
            have hqv : q ∈ visited := hnbr_in_visited q hqm
            rw [updF_ne _ _ (hv_ne_pt q hqv), updF_self]
            have hqin : st.labels q ∈ l0 :: restMs := by
              rw [← hl0, ← hrestMs, ← List.map_cons, ← hmatched]
              exact List.mem_map.mpr ⟨q, hqm, rfl⟩
            rcases List.mem_cons.mp hqin with he | he
            · rw [he]
            · by_cases hql0 : st.labels q = l0
              · rw [hql0]
              · refine joinFold_eq_l0 _ _ _ hl0mem.2.2 heqS _ ?_
                exact List.mem_filter.mpr ⟨he, by simpa using hql0⟩
        · intro l hl
          obtain ⟨a, ha, hla, hmin⟩ := hI.alloc l ((hiff l).mp hl)
          refine ⟨a, List.mem_append.mpr (Or.inl ha), ?_, ?_⟩
          · rw [updF_ne _ _ (hv_ne_pt a ha)]; exact hla
          · intro b hb hblt
            rcases hmem_or b hb with h | h
            · rw [updF_ne _ _ (hv_ne_pt b h)]
              exact hmin b h hblt
            · subst h
              exact absurd hblt (rasterLt_asymm (hvlt a ha))

theorem p1inv_fold {n : Nat} (img : Pixels n) :
    ∀ (rest visited : List Coord) (st : LabState),
      raster img.w img.h = visited ++ rest → P1Inv img visited st →
      P1Inv img (visited ++ rest) (rest.foldl (pass1Step img) st) := by
  intro rest
  induction rest with
  | nil =>
      intro visited st _ hI
      simpa using hI
  | cons pt rest' ih =>
      intro visited st hsplit hI
      have hstep := p1inv_step hI hsplit
      have hsplit' : raster img.w img.h = (visited ++ [pt]) ++ rest' := by
        rw [hsplit]; simp
      have hres := ih (visited ++ [pt]) (pass1Step img st pt) hsplit' hstep
      rw [List.foldl_cons]
      rw [show visited ++ pt :: rest' = (visited ++ [pt]) ++ rest' by simp]
      exact hres

theorem p1inv_final {n : Nat} (img : Pixels n) :
    P1Inv img (raster img.w img.h) (pass1 img) := by
  have hbase : P1Inv img []
      ⟨fun _ => default_label, DisjointSet.init default_label, default_label + 1⟩ := by
    refine ⟨by norm_num [default_label], rfl, ?_, by simp [DisjointSet.init], ?_, ?_, ?_, ?_⟩
    · intro l hl
      simp [DisjointSet.init, DisjointSet.classOf, lookupC] at hl
    · intro p hp; cases hp
    · intro p _; rfl
    · intro p hp; cases hp
    · intro l hl
      simp [DisjointSet.init, DisjointSet.classOf, lookupC] at hl
  have := p1inv_fold img (raster img.w img.h) [] _ (by simp) hbase
  simpa using this

/-!
## Registry (sorted association list) lemmas
-/

theorem lookupPair_eq_none_of {objs : List (Int × CoordPair)} {k : Int}
    (h : ∀ key ∈ objs.map Prod.fst, k ≠ key) : lookupPair objs k = none := by
  induction objs with
  | nil => rfl
  | cons e rest ih =>
      rcases e with ⟨k0, v0⟩
      have hne : k ≠ k0 := h k0 (by simp)
      simp only [lookupPair, if_neg hne]
      exact ih (fun key hk => h key (by simp [hk]))

theorem upsert_keys_sub {objs : List (Int × CoordPair)} {k : Int} {pt : Coord} :
    ∀ key ∈ (objsUpsert objs k pt).map Prod.fst,
      key = k ∨ key ∈ objs.map Prod.fst := by
  induction objs with
  | nil =>
      intro key hk
      simp only [objsUpsert, List.map_cons, List.map_nil, List.mem_singleton] at hk
      exact Or.inl hk
  | cons e rest ih =>
      rcases e with ⟨k0, v0⟩
      intro key hk
      unfold objsUpsert at hk
      by_cases h1 : k < k0
      · rw [if_pos h1] at hk
        simp only [List.map_cons, List.mem_cons] at hk
        rcases hk with h | h | h
        · exact Or.inl h
        · exact Or.inr (by simp [h])
        · exact Or.inr (by simp [h])
      · rw [if_neg h1] at hk
        by_cases h2 : k = k0
        · rw [if_pos h2] at hk
          simp only [List.map_cons, List.mem_cons] at hk
          rcases hk with h | h
          · exact Or.inr (by simp [h])
          · exact Or.inr (by simp [h])
        · rw [if_neg h2] at hk
          simp only [List.map_cons, List.mem_cons] at hk
          rcases hk with h | h
          · exact Or.inr (by simp [h])
          · rcases ih key h with h' | h'
            · exact Or.inl h'
            · exact Or.inr (by simp [h'])

theorem upsert_sorted {objs : List (Int × CoordPair)} {k : Int} {pt : Coord}
    (hs : (objs.map Prod.fst).Pairwise (· < ·)) :
    ((objsUpsert objs k pt).map Prod.fst).Pairwise (· < ·) := by
  induction objs with
  | nil => simp [objsUpsert]
  | cons e rest ih =>
      rcases e with ⟨k0, v0⟩
      simp only [List.map_cons, List.pairwise_cons] at hs
      obtain ⟨hk0, hrest⟩ := hs
      unfold objsUpsert
      by_cases h1 : k < k0
      · rw [if_pos h1]
        simp only [List.map_cons, List.pairwise_cons]
        refine ⟨?_, hk0, hrest⟩
        intro a ha
        rcases List.mem_cons.mp ha with h | h
        · omega
        · have := hk0 a h; omega
      · rw [if_neg h1]
        by_cases h2 : k = k0
        · rw [if_pos h2]
          simp only [List.map_cons, List.pairwise_cons]
          exact ⟨hk0, hrest⟩
        · rw [if_neg h2]
          simp only [List.map_cons, List.pairwise_cons]
          refine ⟨?_, ih hrest⟩
          intro a ha
          rcases upsert_keys_sub a ha with h | h
          · omega
          · exact hk0 a h

theorem upsert_lookup_ne {objs : List (Int × CoordPair)} {k k' : Int} {pt : Coord}
    (hne : k' ≠ k) : lookupPair (objsUpsert objs k pt) k' = lookupPair objs k' := by
  induction objs with
  | nil => simp [objsUpsert, lookupPair, if_neg hne]
  | cons e rest ih =>
      rcases e with ⟨k0, v0⟩
      unfold objsUpsert
      by_cases h1 : k < k0
      · rw [if_pos h1]
        simp only [lookupPair, if_neg hne]
      · rw [if_neg h1]
        by_cases h2 : k = k0
        · rw [if_pos h2]
          subst h2
          simp only [lookupPair, if_neg hne]
        · rw [if_neg h2]
          by_cases h3 : k' = k0
          · simp only [lookupPair, if_pos h3]
          · simp only [lookupPair, if_neg h3]
            exact ih

theorem upsert_lookup_self_none {objs : List (Int × CoordPair)} {k : Int} {pt : Coord}
    (hnone : lookupPair objs k = none) :
    lookupPair (objsUpsert objs k pt) k = some ⟨pt, pt⟩ := by
  induction objs with
  | nil => simp [objsUpsert, lookupPair]
  | cons e rest ih =>
      rcases e with ⟨k0, v0⟩
      unfold objsUpsert
      by_cases h1 : k < k0
      · rw [if_pos h1]
        simp [lookupPair]
      · rw [if_neg h1]
        by_cases h2 : k = k0
        · exfalso
          rw [lookupPair, if_pos h2] at hnone
          cases hnone
        · rw [if_neg h2]
          rw [lookupPair, if_neg h2] at hnone ⊢
          exact ih hnone

theorem upsert_lookup_self_some {objs : List (Int × CoordPair)} {k : Int} {pt : Coord}
    {v : CoordPair} (hs : (objs.map Prod.fst).Pairwise (· < ·))
    (hsome : lookupPair objs k = some v) :
    lookupPair (objsUpsert objs k pt) k = some ⟨v.first, pt⟩ := by
  induction objs with
  | nil => cases hsome
  | cons e rest ih =>
      rcases e with ⟨k0, v0⟩
      simp only [List.map_cons, List.pairwise_cons] at hs
      obtain ⟨hk0, hrest⟩ := hs
      unfold objsUpsert
      by_cases h1 : k < k0
      · exfalso
        have : lookupPair ((k0, v0) :: rest) k = none := by
          refine lookupPair_eq_none_of ?_
          intro key hk
          rcases List.mem_cons.mp hk with h | h
          · omega
          · have := hk0 key (by simpa using h); omega
        rw [this] at hsome; cases hsome
      · rw [if_neg h1]
        by_cases h2 : k = k0
        · rw [if_pos h2]
          rw [lookupPair, if_pos h2] at hsome
          cases hsome
          simp [lookupPair, if_pos h2]
        · rw [if_neg h2]
          rw [lookupPair, if_neg h2] at hsome
          simp only [lookupPair, if_neg h2]
          exact ih hrest hsome

/-!
## Resolution-pass invariant
-/

theorem pass2State_mk_labels (f : Coord → Int) (o : List (Int × CoordPair)) :
    (Pass2State.mk f o).labels = f := rfl

theorem pass2State_mk_objs (f : Coord → Int) (o : List (Int × CoordPair)) :
    (Pass2State.mk f o).objs = o := rfl

theorem p2inv_step {n : Nat} {img : Pixels n} {st1 : LabState}
    (hP1 : P1Inv img (raster img.w img.h) st1)
    {visited rest' : List Coord} {pt : Coord} {st : Pass2State}
    (hI : P2Inv st1.set st1.labels visited st)
    (hsplit : raster img.w img.h = visited ++ pt :: rest') :
    P2Inv st1.set st1.labels (visited ++ [pt]) (pass2Step st1.set st pt) := by
  obtain ⟨hvlt, hptnv, hmemv, _⟩ :=
    pairwise_append_cons (raster_pairwise img.w img.h) hsplit
  have hv_ne_pt : ∀ p, p ∈ visited → p ≠ pt :=
    fun p hp => ne_of_mem_of_not_mem hp hptnv
  have hmem_or : ∀ p, p ∈ visited ++ [pt] → p ∈ visited ∨ p = pt := by
    intro p hp
    rcases List.mem_append.mp hp with h | h
    · exact Or.inl h
    · exact Or.inr (List.mem_singleton.mp h)
  have hptin : pt ∈ raster img.w img.h := by
    rw [hsplit]; exact List.mem_append.mpr (Or.inr (List.mem_cons_self _ _))
  obtain ⟨hl1, hl2, hl3⟩ := hP1.labels_mem pt hptin
  have hread : st.labels pt = st1.labels pt := hI.lab_nv pt hptnv
  obtain ⟨c, hc⟩ := Option.isSome_iff_exists.mp hl3
  have hcl : st.labels pt ≠ default_label := by
    rw [hread]; unfold default_label; omega
  have hfind1 : 1 ≤ st1.set.find (st1.labels pt) :=
    one_le_find hc (fun k hk => (hP1.keys_bound k hk).1) hl1
  have hnf : st1.set.find (st.labels pt) ≠ st1.set.notfound := by
    rw [hread]
    unfold DisjointSet.notfound
    rw [hP1.nf_eq]
    omega
  have hstep : pass2Step st1.set st pt =
      ⟨updF st.labels pt (st1.set.find (st.labels pt)),
       objsUpsert st.objs (st1.set.find (st.labels pt)) pt⟩ := by
    dsimp only [pass2Step]
    rw [if_pos hcl, if_pos hnf]
  rw [hstep]
  have hrepeq : st1.set.find (st.labels pt) = st1.set.find (st1.labels pt) := by
    rw [hread]
  refine ⟨?_, ?_, ?_, ?_, ?_, ?_⟩ <;>
    simp only [pass2State_mk_labels, pass2State_mk_objs]
  · intro p hp
    have hppt : p ≠ pt := fun he => hp (List.mem_append.mpr (Or.inr
      (List.mem_singleton.mpr he)))
    have hpv : p ∉ visited := fun hv => hp (List.mem_append.mpr (Or.inl hv))
    rw [updF_ne _ _ hppt]
    exact hI.lab_nv p hpv
  · intro p hp
    rcases hmem_or p hp with h | h
    · rw [updF_ne _ _ (hv_ne_pt p h)]
      exact hI.lab_v p h
    · subst h
      rw [updF_self]
      exact hrepeq
  · exact upsert_sorted hI.sorted
  · intro k pr hk
    by_cases hkr : k = st1.set.find (st.labels pt)
    · subst hkr
      cases hold : lookupPair st.objs (st1.set.find (st.labels pt)) with
      | none =>
          rw [upsert_lookup_self_none hold] at hk
          cases hk
          refine ⟨List.mem_append.mpr (Or.inr (List.mem_cons_self _ _)),
            hrepeq.symm, ?_⟩
          intro q hq hqf
          rcases hmem_or q hq with h | h
          · exfalso
            obtain ⟨pr', hpr'⟩ := hI.complete q h
            rw [hqf, hold] at hpr'
            cases hpr'
          · subst h
            exact Or.inr rfl
      | some v =>
          rw [upsert_lookup_self_some hI.sorted hold] at hk
          cases hk
          obtain ⟨hfv, hfeq, hmin⟩ := hI.first_res _ v hold
          refine ⟨List.mem_append.mpr (Or.inl hfv), hfeq, ?_⟩
          intro q hq hqf
          rcases hmem_or q hq with h | h
          · exact hmin q h hqf
          · subst h
            exact Or.inl (hvlt v.first hfv)
    · rw [upsert_lookup_ne hkr] at hk
      obtain ⟨hfv, hfeq, hmin⟩ := hI.first_res k pr hk
      refine ⟨List.mem_append.mpr (Or.inl hfv), hfeq, ?_⟩
      intro q hq hqf
      rcases hmem_or q hq with h | h
      · exact hmin q h hqf
      · subst h
        exfalso
        refine hkr ?_
        rw [hrepeq, hqf]
  · intro k pr hk
    by_cases hkr : k = st1.set.find (st.labels pt)
    · subst hkr
      cases hold : lookupPair st.objs (st1.set.find (st.labels pt)) with
      | none =>
          rw [upsert_lookup_self_none hold] at hk
          cases hk
          exact ⟨Or.inr rfl, List.mem_append.mpr (Or.inr (List.mem_cons_self _ _))⟩
      | some v =>
          rw [upsert_lookup_self_some hI.sorted hold] at hk
          cases hk
          obtain ⟨hfv, _, _⟩ := hI.first_res _ v hold
          exact ⟨Or.inl (hvlt v.first hfv),
            List.mem_append.mpr (Or.inr (List.mem_cons_self _ _))⟩
    · rw [upsert_lookup_ne hkr] at hk
      obtain ⟨hfl, hlv⟩ := hI.last_ord k pr hk
      exact ⟨hfl, List.mem_append.mpr (Or.inl hlv)⟩
  · intro q hq
    rcases hmem_or q hq with h | h
    · obtain ⟨pr', hpr'⟩ := hI.complete q h
      by_cases hkr : st1.set.find (st1.labels q) = st1.set.find (st.labels pt)
      · rw [hkr]
        cases hold : lookupPair st.objs (st1.set.find (st.labels pt)) with
        | none => exact ⟨_, upsert_lookup_self_none hold⟩
        | some v => exact ⟨_, upsert_lookup_self_some hI.sorted hold⟩
      · refine ⟨pr', ?_⟩
        rw [upsert_lookup_ne hkr]
        exact hpr'
    · subst h
      rw [← hread]
      cases hold : lookupPair st.objs (st1.set.find (st.labels q)) with
      | none => exact ⟨_, upsert_lookup_self_none hold⟩
      | some v => exact ⟨_, upsert_lookup_self_some hI.sorted hold⟩

theorem p2inv_fold {n : Nat} (img : Pixels n) (st1 : LabState)
    (hP1 : P1Inv img (raster img.w img.h) st1) :
    ∀ (rest visited : List Coord) (st : Pass2State),
      raster img.w img.h = visited ++ rest → P2Inv st1.set st1.labels visited st →
      P2Inv st1.set st1.labels (visited ++ rest)
        (rest.foldl (pass2Step st1.set) st) := by
  intro rest
  induction rest with
  | nil =>
      intro visited st _ hI
      simpa using hI
  | cons pt rest' ih =>
      intro visited st hsplit hI
      have hstep := p2inv_step hP1 hI hsplit
      have hsplit' : raster img.w img.h = (visited ++ [pt]) ++ rest' := by
        rw [hsplit]; simp
      have hres := ih (visited ++ [pt]) (pass2Step st1.set st pt) hsplit' hstep
      rw [List.foldl_cons]
      rw [show visited ++ pt :: rest' = (visited ++ [pt]) ++ rest' by simp]
      exact hres

theorem p2inv_final {n : Nat} (img : Pixels n) :
    P2Inv (pass1 img).set (pass1 img).labels (raster img.w img.h)
      ((raster img.w img.h).foldl (pass2Step (pass1 img).set)
        ⟨(pass1 img).labels, []⟩) := by
  have hbase : P2Inv (pass1 img).set (pass1 img).labels []
      ⟨(pass1 img).labels, []⟩ := by
    refine ⟨fun p _ => rfl, ?_, by simp, ?_, ?_, ?_⟩
    · intro p hp; cases hp
    · intro k pr hk; cases hk
    · intro k pr hk; cases hk
    · intro q hq; cases hq
  have := p2inv_fold img (pass1 img) (p1inv_final img)
    (raster img.w img.h) [] _ (by simp) hbase
  simpa using this

theorem mkBlobs_w {n : Nat} (img : Pixels n) : (mkBlobs img).w = img.w := rfl

theorem mkBlobs_h {n : Nat} (img : Pixels n) : (mkBlobs img).h = img.h := rfl

theorem mkBlobs_labels {n : Nat} (img : Pixels n) :
    (mkBlobs img).labels =
      ((raster img.w img.h).foldl (pass2Step (pass1 img).set)
        ⟨(pass1 img).labels, []⟩).labels := rfl

theorem mkBlobs_objs {n : Nat} (img : Pixels n) :
    (mkBlobs img).objs =
      ((raster img.w img.h).foldl (pass2Step (pass1 img).set)
        ⟨(pass1 img).labels, []⟩).objs := rfl

theorem lookupPair_eq_of_mem_nodup {objs : List (Int × CoordPair)} {k : Int}
    {pr : CoordPair} (hnd : (objs.map Prod.fst).Nodup) (hm : (k, pr) ∈ objs) :
    lookupPair objs k = some pr := by
  induction objs with
  | nil => cases hm
  | cons e rest ih =>
      rcases e with ⟨k0, v0⟩
      simp only [List.map_cons, List.nodup_cons] at hnd
      rcases List.mem_cons.mp hm with h | h
      · simp only [Prod.mk.injEq] at h
        simp [lookupPair, h.1, h.2]
      · by_cases hk : k = k0
        · exfalso
          subst hk
          exact hnd.1 (List.mem_map.mpr ⟨(k, pr), h, rfl⟩)
        · simp only [lookupPair, if_neg hk]
          exact ih hnd.2 h

/-!
## Labeler soundness and registry ordering
-/

theorem adj_final_label_eq {n : Nat} (img : Pixels n) {p q : Coord}
    (h : sameColorAdj img p q) :
    (mkBlobs img).labels p = (mkBlobs img).labels q := by
  obtain ⟨hpb, hqb, hcol, hnbr⟩ := h
  have hP1 := p1inv_final img
  have hP2 := p2inv_final img
  have hpR : p ∈ raster img.w img.h := mem_raster_iff.mpr hpb
  have hqR : q ∈ raster img.w img.h := mem_raster_iff.mpr hqb
  have hcls : (pass1 img).set.classOf ((pass1 img).labels p) =
      (pass1 img).set.classOf ((pass1 img).labels q) := by
    rcases hnbr with hn | hn
    · exact (hP1.adj_classes p hpR q hn hqb hcol.symm).symm
    · exact hP1.adj_classes q hqR p hn hpb hcol
  have hfp : (mkBlobs img).labels p =
      (pass1 img).set.find ((pass1 img).labels p) := by
    rw [mkBlobs_labels]; exact hP2.lab_v p hpR
  have hfq : (mkBlobs img).labels q =
      (pass1 img).set.find ((pass1 img).labels q) := by
    rw [mkBlobs_labels]; exact hP2.lab_v q hqR
  rw [hfp, hfq]
  obtain ⟨cp, hcp⟩ := Option.isSome_iff_exists.mp (hP1.labels_mem p hpR).2.2
  have hcq : (pass1 img).set.classOf ((pass1 img).labels q) = some cp := by
    rw [← hcls]; exact hcp
  exact find_eq_of_classOf_eq hcp hcq

theorem entry_first_is_alloc {n : Nat} (img : Pixels n) {k : Int} {pr : CoordPair}
    (hk : lookupPair (mkBlobs img).objs k = some pr) :
    pr.first ∈ raster img.w img.h ∧ (pass1 img).labels pr.first = k ∧
    ∀ b ∈ raster img.w img.h, rasterLt b pr.first → (pass1 img).labels b < k := by
  have hP1 := p1inv_final img
  have hP2 := p2inv_final img
  rw [mkBlobs_objs] at hk
  obtain ⟨hfv, hfeq, hmin⟩ := hP2.first_res k pr hk
  obtain ⟨hl1, _, hl3⟩ := hP1.labels_mem pr.first hfv
  obtain ⟨c, hc⟩ := Option.isSome_iff_exists.mp hl3
  have hkm : k ∈ (pass1 img).set.members c := by
    rw [← hfeq]; exact find_mem_members hc
  have hkc : (pass1 img).set.classOf k = some c :=
    lookupC_eq_of_mem_nodup hP1.keys_nodup (members_prop hkm)
  obtain ⟨a, haR, hlaA, hminA⟩ := hP1.alloc k (by rw [hkc]; rfl)
  have hfindk : (pass1 img).set.find k = k := by
    have := find_eq_of_classOf_eq hkc hc
    rw [hfeq] at this
    exact this
  have hresa : (pass1 img).set.find ((pass1 img).labels a) = k := by
    rw [hlaA]; exact hfindk
  have hle : rasterLE pr.first a := hmin a haR hresa
  have hnlt : ¬ rasterLt pr.first a := by
    intro hlt
    have hsmall : (pass1 img).labels pr.first < k := hminA pr.first hfv hlt
    have hkle : k ≤ (pass1 img).labels pr.first := by
      rw [← hfeq]; exact find_le_self hc
    omega
  have hfa : pr.first = a := by
    rcases hle with h | h
    · exact absurd h hnlt
    · exact h
  subst hfa
  exact ⟨hfv, hlaA, hminA⟩

theorem firstSeen_rasterLt {n : Nat} (img : Pixels n) {k k' : Int}
    {pr pr' : CoordPair} (hk : lookupPair (mkBlobs img).objs k = some pr)
    (hk' : lookupPair (mkBlobs img).objs k' = some pr') (hlt : k < k') :
    rasterLt pr.first pr'.first := by
  obtain ⟨hR, hlf, hminf⟩ := entry_first_is_alloc img hk
  obtain ⟨hR', hlf', hminf'⟩ := entry_first_is_alloc img hk'
  rcases rasterLt_tri pr.first pr'.first with h | h | h
  · exact h
  · exfalso
    rw [h, hlf'] at hlf
    omega
  · exfalso
    have := hminf pr'.first hR' h
    rw [hlf'] at this
    omega

theorem objs_firsts_mono {n : Nat} (img : Pixels n) :
    (mkBlobs img).objs.Pairwise (fun e e' => e.2.first.y ≤ e'.2.first.y) := by
  have hP2 := p2inv_final img
  have hsorted : ((mkBlobs img).objs.map Prod.fst).Pairwise (· < ·) := by
    rw [mkBlobs_objs]; exact hP2.sorted
  have hnd : ((mkBlobs img).objs.map Prod.fst).Nodup :=
    hsorted.imp (fun h => ne_of_lt h)
  have hkey : (mkBlobs img).objs.Pairwise (fun e e' => e.1 < e'.1) :=
    List.pairwise_map.mp hsorted
  refine List.Pairwise.imp_of_mem ?_ hkey
  intro e e' he he' hlt
  rcases e with ⟨k, pr⟩
  rcases e' with ⟨k', pr'⟩
  have hlk : lookupPair (mkBlobs img).objs k = some pr :=
    lookupPair_eq_of_mem_nodup hnd he
  have hlk' : lookupPair (mkBlobs img).objs k' = some pr' :=
    lookupPair_eq_of_mem_nodup hnd he'
  exact rasterLt_y_le (firstSeen_rasterLt img hlk hlk' hlt)

theorem startInAux_eq_fullScan_of_mono {p1 p2 : Coord}
    {objs : List (Int × CoordPair)}
    (hm : objs.Pairwise (fun e e' => e.2.first.y ≤ e'.2.first.y)) :
    startInAux p1 p2 objs = startInFullScan objs p1 p2 := by
  induction objs with
  | nil => rfl
  | cons e rest ih =>
      rw [List.pairwise_cons] at hm
      obtain ⟨hhead, htail⟩ := hm
      unfold startInAux startInFullScan
      by_cases hc : e.2.first.y ≥ p1.y ∧ e.2.first.y ≤ p2.y ∧
          e.2.first.x ≥ p1.x ∧ e.2.first.x ≤ p2.x
      · rw [if_pos hc, List.filter_cons_of_pos (by simpa using hc), List.map_cons]
        rw [ih htail]
        rfl
      · rw [if_neg hc]
        by_cases hb : e.2.first.y > p2.y
        · rw [if_pos hb]
          symm
          rw [List.map_eq_nil_iff, List.filter_eq_nil_iff]
          intro e' he'
          rcases List.mem_cons.mp he' with h | h
          · subst h; simpa using hc
          · have := hhead e' h
            simp only [decide_eq_true_eq]
            intro hcond
            omega
        · rw [if_neg hb, List.filter_cons_of_neg (by simpa using hc)]
          exact ih htail

/-!
## Rectangle access lemmas
-/

theorem mem_intRange {a b x : Int} : x ∈ intRange a b ↔ a ≤ x ∧ x < b := by
  unfold intRange
  constructor
  · intro hm
    obtain ⟨k, hk, he⟩ := List.mem_map.mp hm
    rw [List.mem_range] at hk
    omega
  · intro hb
    refine List.mem_map.mpr ⟨(x - a).toNat, ?_, ?_⟩
    · rw [List.mem_range]; omega
    · omega

theorem mem_inAccesses {p1 p2 q : Coord} :
    q ∈ Blobs.inAccesses p1 p2 ↔
      p1.y ≤ q.y ∧ q.y < p2.y ∧ p1.x ≤ q.x ∧ q.x < p2.x := by
  unfold Blobs.inAccesses
  constructor
  · intro hm
    obtain ⟨y, hy, hq⟩ := List.mem_flatMap.mp hm
    obtain ⟨x, hx, he⟩ := List.mem_map.mp hq
    rw [mem_intRange] at hy hx
    rw [← he]
    exact ⟨hy.1, hy.2, hx.1, hx.2⟩
  · intro hb
    refine List.mem_flatMap.mpr ⟨q.y, mem_intRange.mpr ⟨hb.1, hb.2.1⟩, ?_⟩
    refine List.mem_map.mpr ⟨q.x, mem_intRange.mpr ⟨hb.2.2.1, hb.2.2.2⟩, rfl⟩

/-!
## Segmenter lemmas
-/

theorem average_zero {l : List ℚ} (h : ∀ x ∈ l, x = 0) : average l = 0 := by
  unfold average
  rw [List.sum_eq_zero h, zero_div]

theorem variance_zero {l : List ℚ} (h : ∀ x ∈ l, x = 0) : variance l = 0 := by
  unfold variance
  apply average_zero
  intro x hx
  obtain ⟨y, hy, he⟩ := List.mem_map.mp hx
  rw [← he, h y hy, average_zero h]
  norm_num

theorem distSq_pos_of_ne {a b : Coord} (h : a ≠ b) : 0 < distSq a b := by
  unfold distSq
  have hne : a.x ≠ b.x ∨ a.y ≠ b.y := by
    by_contra hc
    push_neg at hc
    rcases a with ⟨ax, ay⟩
    rcases b with ⟨bx, by'⟩
    exact h (by rw [Coord.mk.injEq]; exact ⟨hc.1, hc.2⟩)
  rcases hne with h' | h'
  · exact add_pos_of_pos_of_nonneg
      (pow_two_pos_of_ne_zero (sub_ne_zero.mpr (Ne.symm h'))) (sq_nonneg _)
  · exact add_pos_of_nonneg_of_pos (sq_nonneg _)
      (pow_two_pos_of_ne_zero (sub_ne_zero.mpr (Ne.symm h')))

theorem isLine_in_range (path : List Coord) (i j : Int) (mE : ℚ)
    (h : ¬(i < 0 ∨ j < 0 ∨ (path.length : Int) ≤ i ∨ (path.length : Int) ≤ j)) :
    isLine path i j mE =
      decide (0 < ((distSq (getP path i.toNat) (getP path j.toNat) : Int) : ℚ) ∧
        average (isLineDist path i.toNat j.toNat) <
          mE * ((distSq (getP path i.toNat) (getP path j.toNat) : Int) : ℚ) ∧
        0 < mE ∧
        4 * variance (isLineDist path i.toNat j.toNat) <
          mE ^ 2 * ((distSq (getP path i.toNat) (getP path j.toNat) : Int) : ℚ) ^ 2) := by
  unfold isLine
  rw [if_neg h]

theorem segB_short (path : List Coord) (mE : ℚ) (h : path.length < 100) :
    findLinesExtendingDecreasingError path mE = [] := by
  cases path with
  | nil => rfl
  | cons a path' =>
      simp only [findLinesExtendingDecreasingError, List.isEmpty_cons]
      have hfs : firstSearchB (a :: path') mE (a :: path').length
          (a :: path').length 0 ((a :: path').length / 2) = none := by
        rw [show (a :: path').length = path'.length + 1 from rfl]
        unfold firstSearchB
        rw [if_neg (by omega)]
        rw [if_pos (by simp at h; omega)]
      rw [hfs]
      rfl

theorem segA_short (path : List Coord) (mE : ℚ) (h : path.length < 10) :
    findLinesHalvingExtending path mE = [] ∨
    findLinesHalvingExtending path mE =
      [⟨getP path 0, getP path (path.length - 1),
        distSq (getP path 0) (getP path (path.length - 1))⟩] := by
  cases path with
  | nil => exact Or.inl rfl
  | cons a path' =>
      simp only [findLinesHalvingExtending, List.isEmpty_cons]
      by_cases hw : isLine (a :: path') 0 (((a :: path').length : Int) - 1) mE ∧
          (10 : Int) * 10 <
            distSq (getP (a :: path') 0) (getP (a :: path') ((a :: path').length - 1))
      · right
        rw [if_pos hw]
        simp
      · left
        rw [if_neg hw]
        have hfs : firstSearchA (a :: path') mE (a :: path').length
            (a :: path').length 0 ((a :: path').length / 2) = none := by
          rw [show (a :: path').length = path'.length + 1 from rfl]
          unfold firstSearchA
          rw [if_neg (by omega)]
          rw [if_pos (by simp at h; omega)]
        rw [hfs]
        rfl

/-!
## The claims
-/

/-- C1: after the `Blobs` constructor, any two pixels connected by a chain
of same-colour adjacencies under the labeler's neighbour relation (left,
up-left, up, up-right) carry equal resolved labels in the final label
grid. -/
theorem blobs_connected_same_label {n : Nat} (img : Pixels n) (p q : Coord)
    (h : connectedPix img p q) :
    (mkBlobs img).labels p = (mkBlobs img).labels q := by
  unfold connectedPix at h
  induction h with
  | refl => rfl
  | tail _ hadj ih => exact ih.trans (adj_final_label_eq img hadj)

theorem blobs_connected_same_label_witness :
    (mkBlobs (⟨[[[7], [7]]], 2, 1⟩ : Pixels 1)).labels ⟨0, 0⟩ =
      (mkBlobs (⟨[[[7], [7]]], 2, 1⟩ : Pixels 1)).labels ⟨1, 0⟩ :=
  blobs_connected_same_label _ _ _
    (Relation.ReflTransGen.single ⟨by decide, by decide, by decide, Or.inr (by decide)⟩)

/-- C2: `Blobs::startIn` (objectsStartingIn) with its early-exit break
returns exactly the firstSeen coordinates that a full scan of the whole
registry filtered by the rectangle returns, for every rectangle and every
registry the labeler produces. -/
theorem startIn_eq_full_scan {n : Nat} (img : Pixels n) (p1 p2 : Coord) :
    Blobs.startIn (mkBlobs img) p1 p2 = startInFullScan (mkBlobs img).objs p1 p2 := by
  unfold Blobs.startIn
  exact startInAux_eq_fullScan_of_mono (objs_firsts_mono img)

/-- C4: `findLinesHalvingExtending` (strategy A) returns at most two line
segments for every path and every maxError. -/
theorem findLinesHalvingExtending_at_most_two (path : List Coord) (maxError : ℚ) :
    (findLinesHalvingExtending path maxError).length ≤ 2 := by
  simp only [findLinesHalvingExtending]
  split
  · simp
  · split
    · simp
    · split
      · simp
      · rename_i fs fe _
        simp only [List.length_cons]
        have h1 : ((secondSearchA path maxError path.length fs
            (path.length + fs + 1) fe).toList).length ≤ 1 := by
          cases secondSearchA path maxError path.length fs (path.length + fs + 1) fe <;> simp
        omega

/-- C6: for an in-bounds pixel the labeler never treats an out-of-bounds
neighbour as a same-colour match — the neighbour fails the labeler's
bounds test and is skipped, for every image, including when the pixel's
colour equals the grid's out-of-bounds default (all channels 255), which
is also what `Pixels::color` returns there. -/
theorem labeler_skips_oob {n : Nat} (img : Pixels n) (pt q : Coord)
    (hq : q ∈ nbrsOf pt) (hout : inB img.w img.h q = false) :
    q ∉ matchedNeighbors img pt ∧ img.color q = List.replicate n 255 := by
  constructor
  · intro hm
    obtain ⟨_, hb, _⟩ := mem_matched_iff.mp hm
    rw [hout] at hb
    cases hb
  · unfold Pixels.color
    rw [if_neg (by simp [hout])]

theorem labeler_skips_oob_witness :
    ((⟨-1, 0⟩ : Coord) ∉ matchedNeighbors (⟨[[[255]]], 1, 1⟩ : Pixels 1) ⟨0, 0⟩) ∧
    Pixels.color (⟨[[[255]]], 1, 1⟩ : Pixels 1) ⟨-1, 0⟩ =
      Pixels.color (⟨[[[255]]], 1, 1⟩ : Pixels 1) ⟨0, 0⟩ :=
  ⟨(labeler_skips_oob (⟨[[[255]]], 1, 1⟩ : Pixels 1) ⟨0, 0⟩ ⟨-1, 0⟩
      (by decide) (by decide)).1, by decide⟩

/-- C7: every registry entry satisfies firstSeen.y ≤ lastSeen.y, and when
the rows agree, firstSeen.x ≤ lastSeen.x. -/
theorem registry_first_le_last {n : Nat} (img : Pixels n) (k : Int) (pr : CoordPair)
    (h : (k, pr) ∈ (mkBlobs img).objs) :
    pr.first.y ≤ pr.last.y ∧ (pr.first.y = pr.last.y → pr.first.x ≤ pr.last.x) := by
  have hP2 := p2inv_final img
  have hsorted : ((mkBlobs img).objs.map Prod.fst).Pairwise (· < ·) := by
    rw [mkBlobs_objs]; exact hP2.sorted
  have hnd : ((mkBlobs img).objs.map Prod.fst).Nodup :=
    hsorted.imp (fun hlt => ne_of_lt hlt)
  have hlk : lookupPair (mkBlobs img).objs k = some pr :=
    lookupPair_eq_of_mem_nodup hnd h
  rw [mkBlobs_objs] at hlk
  obtain ⟨hfl, _⟩ := hP2.last_ord k pr hlk
  rcases hfl with hlt | heq
  · unfold rasterLt at hlt
    rcases hlt with h' | ⟨h1, h2⟩
    · exact ⟨le_of_lt h', fun he => by omega⟩
    · exact ⟨le_of_eq h1, fun _ => le_of_lt h2⟩
  · rw [heq]
    exact ⟨le_refl _, fun _ => le_refl _⟩

theorem registry_first_le_last_witness :
    ((⟨⟨0, 0⟩, ⟨1, 0⟩⟩ : CoordPair).first.y ≤ (⟨⟨0, 0⟩, ⟨1, 0⟩⟩ : CoordPair).last.y) ∧
    ((⟨⟨0, 0⟩, ⟨1, 0⟩⟩ : CoordPair).first.y = (⟨⟨0, 0⟩, ⟨1, 0⟩⟩ : CoordPair).last.y →
      (⟨⟨0, 0⟩, ⟨1, 0⟩⟩ : CoordPair).first.x ≤ (⟨⟨0, 0⟩, ⟨1, 0⟩⟩ : CoordPair).last.x) :=
  registry_first_le_last (⟨[[[7], [7]]], 2, 1⟩ : Pixels 1) 1 ⟨⟨0, 0⟩, ⟨1, 0⟩⟩ (by decide)

/-- C9: `Blobs::object(label)` returns the registry entry when one exists
for the label, and the default-constructed pair (both coordinates (0,0))
when none does — a sentinel result, not an error. -/
theorem object_lookup_or_default (b : Blobs) (l : Int) :
    (∀ pr, lookupPair b.objs l = some pr → b.object l = pr) ∧
    (lookupPair b.objs l = none → b.object l = ⟨⟨0, 0⟩, ⟨0, 0⟩⟩) := by
  constructor
  · intro pr h
    unfold Blobs.object
    rw [h]
  · intro h
    unfold Blobs.object
    rw [h]

theorem object_lookup_or_default_witness :
    Blobs.object (mkBlobs (⟨[[[7], [7]]], 2, 1⟩ : Pixels 1)) 1 = ⟨⟨0, 0⟩, ⟨1, 0⟩⟩ ∧
    Blobs.object (mkBlobs (⟨[[[7], [7]]], 2, 1⟩ : Pixels 1)) 5 = ⟨⟨0, 0⟩, ⟨0, 0⟩⟩ :=
  ⟨(object_lookup_or_default _ 1).1 _ (by decide),
   (object_lookup_or_default _ 5).2 (by decide)⟩

/-- C10: `Blobs::in` (objectsTouching) reads the label grid at exactly the
points of the rectangle [p1, p2) with no bounds check of its own, so all
reads are in bounds exactly when the rectangle lies within the grid (and
an out-of-range rectangle does produce out-of-bounds reads) — unlike
`Blobs::label`, which returns the background label for every out-of-range
query. -/
theorem objectsTouching_access_bounds (b : Blobs) (p1 p2 : Coord) :
    (∀ q : Coord, q ∈ Blobs.inAccesses p1 p2 ↔
      (p1.y ≤ q.y ∧ q.y < p2.y ∧ p1.x ≤ q.x ∧ q.x < p2.x)) ∧
    ((0 ≤ p1.x ∧ 0 ≤ p1.y ∧ p2.x ≤ b.w ∧ p2.y ≤ b.h) →
      ∀ q ∈ Blobs.inAccesses p1 p2, inB b.w b.h q = true) ∧
    (∃ p1' p2' q' : Coord, q' ∈ Blobs.inAccesses p1' p2' ∧ inB b.w b.h q' = false) ∧
    (∀ q : Coord, inB b.w b.h q = false → b.label q = default_label) := by
  refine ⟨fun q => mem_inAccesses, ?_, ?_, ?_⟩
  · intro hpre q hq
    rw [mem_inAccesses] at hq
    unfold inB
    simp only [decide_eq_true_eq]
    omega
  · refine ⟨⟨b.w, 0⟩, ⟨b.w + 1, 1⟩, ⟨b.w, 0⟩, ?_, ?_⟩
    · rw [mem_inAccesses]
      simp
    · unfold inB
      simp only [decide_eq_false_iff_not]
      rintro ⟨_, _, h3, _⟩
      simp at h3
  · intro q hq
    unfold Blobs.label
    rw [if_neg (by simp [hq])]

theorem objectsTouching_access_bounds_witness :
    inB 2 1 ⟨1, 0⟩ = true :=
  (objectsTouching_access_bounds (mkBlobs (⟨[[[7], [7]]], 2, 1⟩ : Pixels 1))
    ⟨0, 0⟩ ⟨2, 1⟩).2.1 (by decide) ⟨1, 0⟩ (by decide)

/-- C3 counterexample: on the perfectly collinear path (0,0),(1,1),(2,2)
every perpendicular-distance numerator is 0, yet `isLine` with
maxError = 0 rejects (its comparisons are strict), refuting "isLine
returns true for every maxError ≥ 0"; and with coincident chord endpoints
(all points (5,5)) `isLine` rejects even for maxError = 1 > 0. -/
theorem isLine_collinear_zero_maxError_cex :
    (∀ d ∈ isLineDist [⟨0, 0⟩, ⟨1, 1⟩, ⟨2, 2⟩] 0 2, d = 0) ∧
    isLine [⟨0, 0⟩, ⟨1, 1⟩, ⟨2, 2⟩] 0 2 0 = false ∧
    (∀ d ∈ isLineDist [⟨5, 5⟩, ⟨5, 5⟩, ⟨5, 5⟩] 0 2, d = 0) ∧
    isLine [⟨5, 5⟩, ⟨5, 5⟩, ⟨5, 5⟩] 0 2 1 = false := by
  refine ⟨?_, ?_, ?_, ?_⟩
  · intro d hd
    simp [isLineDist, isLineKs, ksAux, cross2, getP] at hd
    exact hd
  · rw [isLine_in_range _ _ _ _ (by simp)]
    rw [decide_eq_false_iff_not]
    rintro ⟨_, _, h, _⟩
    exact lt_irrefl 0 h
  · intro d hd
    simp [isLineDist, isLineKs, ksAux, cross2, getP] at hd
    exact hd
  · rw [isLine_in_range _ _ _ _ (by simp)]
    rw [decide_eq_false_iff_not]
    rintro ⟨h, _⟩
    have hz : ¬ (0 : Int) < distSq (getP [⟨5, 5⟩, ⟨5, 5⟩, ⟨5, 5⟩] (Int.toNat 0))
        (getP [⟨5, 5⟩, ⟨5, 5⟩, ⟨5, 5⟩] (Int.toNat 2)) := by decide
    rw [show ((0 : ℚ)) = ((0 : Int) : ℚ) from by norm_num] at h
    exact hz (by exact_mod_cast h)

/-- C3 (amended): for in-range indices whose strictly-between points all
have perpendicular distance exactly 0 from the chord, `lineError` is 0,
and `isLine` accepts for every maxError > 0 provided the chord endpoints
differ (the source's strict comparisons reject maxError = 0 and a
zero-length chord). -/
theorem isLine_lineError_collinear (path : List Coord) (i j : Nat) (maxError : ℚ)
    (hi : i < path.length) (hj : j < path.length)
    (h1 : ∀ d ∈ isLineDist path i j, d = 0)
    (h2 : ∀ d ∈ lineErrorDist path i j, d = 0) :
    lineError path i j = 0 ∧
    (0 < maxError → getP path i ≠ getP path j →
      isLine path (i : Int) (j : Int) maxError = true) := by
  constructor
  · unfold lineError
    rw [average_zero h2, zero_div]
  · intro hme hne
    rw [isLine_in_range _ _ _ _ (by rintro (h | h | h | h) <;> omega)]
    rw [decide_eq_true_eq]
    rw [show ((i : Int)).toNat = i from Int.toNat_natCast i,
      show ((j : Int)).toNat = j from Int.toNat_natCast j]
    have hsq : (0 : ℚ) < ((distSq (getP path i) (getP path j) : Int) : ℚ) := by
      exact_mod_cast distSq_pos_of_ne hne
    refine ⟨hsq, ?_, hme, ?_⟩
    · rw [average_zero h1]
      exact mul_pos hme hsq
    · rw [variance_zero h1, mul_zero]
      exact mul_pos (pow_pos hme 2) (pow_pos hsq 2)

theorem isLine_lineError_collinear_witness :
    lineError [⟨0, 0⟩, ⟨1, 1⟩, ⟨2, 2⟩] 0 2 = 0 ∧
    isLine [⟨0, 0⟩, ⟨1, 1⟩, ⟨2, 2⟩] 0 2 (1 / 2) = true := by
  have h := isLine_lineError_collinear [⟨0, 0⟩, ⟨1, 1⟩, ⟨2, 2⟩] 0 2 (1 / 2)
    (by decide) (by decide)
    (by intro d hd; simp [isLineDist, isLineKs, ksAux, cross2, getP] at hd; exact hd)
    (by intro d hd; simp [lineErrorDist, lineErrorKs, ksAux, cross2, getP] at hd; exact hd)
  exact ⟨h.1, h.2 (by norm_num) (by decide)⟩

/-- C5: at the failing input — ten collinear points, a candidate at
start = 0 with window length 3, currentError = 1 — `findLargerLength`
performs no extension at all and returns the window length unchanged,
because its loop guard `(start + largerLength) % size < start` is false
at entry for any window that does not wrap past the end of the path; yet
extending to length 4 would strictly improve the error (lineError = 0 <
1), which is what the code's own comments and the spec describe. -/
theorem findLargerLength_no_extension :
    findLargerLength [⟨0, 0⟩, ⟨1, 1⟩, ⟨2, 2⟩, ⟨3, 3⟩, ⟨4, 4⟩, ⟨5, 5⟩, ⟨6, 6⟩,
      ⟨7, 7⟩, ⟨8, 8⟩, ⟨9, 9⟩] 1 0 3 25 = 3 ∧
    lineError [⟨0, 0⟩, ⟨1, 1⟩, ⟨2, 2⟩, ⟨3, 3⟩, ⟨4, 4⟩, ⟨5, 5⟩, ⟨6, 6⟩,
      ⟨7, 7⟩, ⟨8, 8⟩, ⟨9, 9⟩] 0 4 = 0 := by
  constructor
  · decide
  · have h : ∀ d ∈ lineErrorDist [⟨0, 0⟩, ⟨1, 1⟩, ⟨2, 2⟩, ⟨3, 3⟩, ⟨4, 4⟩, ⟨5, 5⟩,
        ⟨6, 6⟩, ⟨7, 7⟩, ⟨8, 8⟩, ⟨9, 9⟩] 0 4, d = 0 := by
      intro d hd
      simp [lineErrorDist, lineErrorKs, ksAux, cross2, getP] at hd
      exact hd
    unfold lineError
    rw [average_zero h, zero_div]

/-- C8 counterexample: the four-point collinear path below has fewer
points (4) than strategy A's minimum line length (10), yet
`findLinesHalvingExtending` emits one segment, because the whole-path
shortcut compares the minimum against the Euclidean chord length, not the
point count. -/
theorem short_path_segment_cex :
    (([⟨0, 0⟩, ⟨40, 40⟩, ⟨80, 80⟩, ⟨120, 120⟩] : List Coord)).length < 10 ∧
    (findLinesHalvingExtending [⟨0, 0⟩, ⟨40, 40⟩, ⟨80, 80⟩, ⟨120, 120⟩] 1).length = 1 := by
  constructor
  · decide
  · have hall : ∀ d ∈ isLineDist [⟨0, 0⟩, ⟨40, 40⟩, ⟨80, 80⟩, ⟨120, 120⟩] 0 3, d = 0 := by
      intro d hd
      simp [isLineDist, isLineKs, ksAux, cross2, getP] at hd
      exact hd
    have hs : (0 : Int) < distSq (getP [⟨0, 0⟩, ⟨40, 40⟩, ⟨80, 80⟩, ⟨120, 120⟩] 0)
        (getP [⟨0, 0⟩, ⟨40, 40⟩, ⟨80, 80⟩, ⟨120, 120⟩] 3) := by decide
    have hsq : (0 : ℚ) < ((distSq (getP [⟨0, 0⟩, ⟨40, 40⟩, ⟨80, 80⟩, ⟨120, 120⟩] 0)
        (getP [⟨0, 0⟩, ⟨40, 40⟩, ⟨80, 80⟩, ⟨120, 120⟩] 3) : Int) : ℚ) := by
      exact_mod_cast hs
    have hisline : isLine [⟨0, 0⟩, ⟨40, 40⟩, ⟨80, 80⟩, ⟨120, 120⟩] 0 3 1 = true := by
      rw [isLine_in_range _ _ _ _ (by simp)]
      rw [decide_eq_true_eq]
      rw [show Int.toNat 0 = 0 from rfl, show Int.toNat 3 = 3 from rfl]
      refine ⟨hsq, ?_, by norm_num, ?_⟩
      · rw [average_zero hall, one_mul]
        exact hsq
      · rw [variance_zero hall, mul_zero, one_pow, one_mul]
        exact pow_pos hsq 2
    have hres : findLinesHalvingExtending [⟨0, 0⟩, ⟨40, 40⟩, ⟨80, 80⟩, ⟨120, 120⟩] 1 =
        [⟨⟨0, 0⟩, ⟨120, 120⟩,
          distSq (getP [⟨0, 0⟩, ⟨40, 40⟩, ⟨80, 80⟩, ⟨120, 120⟩] 0)
            (getP [⟨0, 0⟩, ⟨40, 40⟩, ⟨80, 80⟩, ⟨120, 120⟩] 3)⟩] := by
      simp only [findLinesHalvingExtending]
      rw [if_neg (by decide)]
      rw [if_pos (⟨hisline, by decide⟩ :
        isLine [⟨0, 0⟩, ⟨40, 40⟩, ⟨80, 80⟩, ⟨120, 120⟩] 0
            ((↑([⟨0, 0⟩, ⟨40, 40⟩, ⟨80, 80⟩, ⟨120, 120⟩] : List Coord).length : Int) - 1) 1 = true ∧
          (10 : Int) * 10 < distSq (getP [⟨0, 0⟩, ⟨40, 40⟩, ⟨80, 80⟩, ⟨120, 120⟩] 0)
            (getP [⟨0, 0⟩, ⟨40, 40⟩, ⟨80, 80⟩, ⟨120, 120⟩]
              (([⟨0, 0⟩, ⟨40, 40⟩, ⟨80, 80⟩, ⟨120, 120⟩] : List Coord).length - 1)))]
      decide
    rw [hres]
    rfl

/-- C8 (amended): both strategies return no segments on the empty path;
strategy B emits nothing whenever the path has fewer points than its
minimum line length; and strategy A with fewer points than its minimum
emits nothing except possibly the single whole-path segment, which its
shortcut admits when the end-to-end chord is geometrically longer than
the minimum. -/
theorem segmenters_degenerate (path : List Coord) (mE : ℚ) :
    (path = [] → findLinesHalvingExtending path mE = [] ∧
      findLinesExtendingDecreasingError path mE = []) ∧
    (path.length < 100 → findLinesExtendingDecreasingError path mE = []) ∧
    (path.length < 10 → findLinesHalvingExtending path mE = [] ∨
      findLinesHalvingExtending path mE =
        [⟨getP path 0, getP path (path.length - 1),
          distSq (getP path 0) (getP path (path.length - 1))⟩]) := by
  refine ⟨?_, fun h => segB_short path mE h, fun h => segA_short path mE h⟩
  intro he
  subst he
  exact ⟨rfl, rfl⟩

theorem segmenters_degenerate_witness :
    findLinesExtendingDecreasingError [⟨0, 0⟩, ⟨1, 1⟩] 1 = [] :=
  (segmenters_degenerate [⟨0, 0⟩, ⟨1, 1⟩] 1).2.1 (by decide)
